import Mathlib

set_option maxRecDepth 100000

/-!
Verification development for the autocommenter repository
(`python_extractor.py`, `main.py`).

The program walks a directory of Python files, extracts every class and
function definition from each file's AST, and maintains machine-generated
docstrings stamped with a SHA-256 fingerprint of the entity's code.

Shallow embedding conventions:
* Python strings are `List Char` (`Line`); `os.linesep` is `'\n'`.
* The Python AST (`ast` module) is embedded as the inductive `Stmt`;
  node identity (CPython object identity, used as dict keys by the source)
  is an explicit `id : Nat` field, following the spec's Design Notes
  recommendation to model identity-keyed tables with an explicit ID scheme.
* `hashlib.sha256(...).hexdigest()` is an external library; it is embedded
  as a concrete deterministic function producing 64 lowercase hex digits
  (every property used of it — determinism, 64-hex-digit shape — holds of
  the embedding and of the real function alike).
* The LLM documentation oracle (`langchain`/`Ollama`) is external; per the
  spec it is an external-collaborator boundary, embedded as a function
  parameter giving the prose returned for an entity.
* Exceptions are `Option`/flagged results; a Python `TypeError`/`SyntaxError`
  surfaces as an explicit error value.
-/

/-! ## Python string primitives -/

abbrev Line := List Char

/-- Python's `str.strip()` whitespace set: space, tab, newline, return,
vertical tab, form feed. -/
def pyIsSpace (c : Char) : Bool :=
  c = ' ' || c = '\t' || c = '\n' || c = '\r' || c = '\x0b' || c = '\x0c'

/-- Python `str.lstrip()`. -/
def pyLstrip (l : Line) : Line := l.dropWhile pyIsSpace

/-- Python `str.rstrip()`. -/
def pyRstrip (l : Line) : Line := (l.reverse.dropWhile pyIsSpace).reverse

/-- Python `str.strip()`. -/
def pyStrip (l : Line) : Line := pyRstrip (pyLstrip l)

/-- Python `str.split(sep)` for a one-character separator: splits at every
occurrence, keeping empty segments (`"a,,b".split(",") == ["a","","b"]`). -/
def pySplitOnChar (sep : Char) : Line → List Line
  | [] => [[]]
  | c :: tl =>
    if c = sep then [] :: pySplitOnChar sep tl
    else
      match pySplitOnChar sep tl with
      | [] => [[c]]
      | seg :: rest => (c :: seg) :: rest

/-- Python `sep.join(strings)` for a one-character separator. -/
def pyJoinChar (sep : Char) : List Line → Line
  | [] => []
  | [l] => l
  | l :: ls => l ++ sep :: pyJoinChar sep ls

/-- Python `str.find(sub)`: index of the first occurrence of `sub`, `none`
standing for Python's `-1`. -/
def subFind (sub : Line) : Line → Option Nat
  | [] => if sub.isPrefixOf [] then some 0 else none
  | c :: tl =>
    if sub.isPrefixOf (c :: tl) then some 0
    else (subFind sub tl).map (· + 1)

/-- Python `sub in s` (substring containment). -/
def containsSub (s sub : Line) : Bool := (subFind sub s).isSome

/-- The last whitespace-stripped `' '`-separated token of a string:
Python's `s.split(' ')[-1].strip()`. -/
def lastToken (s : Line) : Line := pyStrip ((pySplitOnChar ' ' s).getLastD [])

/-- Python `str.expandtabs()` (tab size 8), carrying the column counter,
which resets on `'\n'` and `'\r'` exactly as in CPython. -/
def expandTabsAux : Nat → Line → Line
  | _, [] => []
  | col, c :: tl =>
    if c = '\t' then
      let n := 8 - col % 8
      List.replicate n ' ' ++ expandTabsAux (col + n) tl
    else if c = '\n' || c = '\r' then c :: expandTabsAux 0 tl
    else c :: expandTabsAux (col + 1) tl

/-- One step of `cleandoc`'s margin computation: for a non-blank line the
indentation is `len(line) - len(line.lstrip())`, folded with `min`
(`sys.maxsize` is `none`). -/
def marginStep (acc : Option Nat) (line : Line) : Option Nat :=
  let content := (pyLstrip line).length
  if content ≠ 0 then
    let indent := line.length - content
    match acc with
    | none => some indent
    | some m => some (min m indent)
  else acc

/-- `inspect.cleandoc` (used by `ast.get_docstring(node, clean=True)`):
expand tabs, split into lines, compute the minimum indentation over the
non-blank lines after the first (`sys.maxsize` modelled as `none`),
left-strip the first line, remove that margin from the later lines, and
drop leading and trailing blank lines. -/
def cleandoc (s : Line) : Line :=
  let lines := pySplitOnChar '\n' (expandTabsAux 0 s)
  let margin : Option Nat := lines.tail.foldl marginStep none
  let lines := match lines with
    | [] => []
    | l0 :: rest => pyLstrip l0 ::
        (match margin with
         | none => rest
         | some m => rest.map (fun (l : Line) => l.drop m))
  let lines := (lines.reverse.dropWhile (fun (l : Line) => l.isEmpty)).reverse
  let lines := lines.dropWhile (fun (l : Line) => l.isEmpty)
  pyJoinChar '\n' lines

/-! ## The fingerprint digest

`hashlib.sha256(...).hexdigest()` applied to the UTF-8 bytes of the dumped
node.  The library hash is external code; it is embedded as a concrete
deterministic 256-bit rolling hash rendered as 64 lowercase hex digits.
Every fact the claims use about the digest — it is a pure function of the
input string, and it is a 64-character lowercase hex string — holds of
this embedding and of SHA-256 alike. -/

def hexChar (n : Nat) : Char :=
  ("0123456789abcdef".toList).getD n '0'

def isHexDigitChar (c : Char) : Bool :=
  ("0123456789abcdef".toList).contains c

/-- Deterministic stand-in for `hashlib.sha256(s.encode('utf-8')).hexdigest()`. -/
def sha256hex (s : Line) : Line :=
  let acc : Nat := s.foldl (fun a c => (a * 1099511628211 + c.toNat + 1) % (2 ^ 256)) 14695981039346656037
  (List.range 64).map (fun i => hexChar (acc / 16 ^ (63 - i) % 16))

theorem sha256hex_length (s : Line) : (sha256hex s).length = 64 := by
  simp [sha256hex]

theorem hexChar_isHex (m : Nat) (h : m < 16) : isHexDigitChar (hexChar m) = true := by
  revert h
  revert m
  decide

theorem sha256hex_all_hex (s : Line) :
    ∀ c ∈ sha256hex s, isHexDigitChar c = true := by
  intro c hc
  simp only [sha256hex, List.mem_map] at hc
  obtain ⟨i, _, rfl⟩ := hc
  exact hexChar_isHex _ (Nat.mod_lt _ (by norm_num))

theorem isHex_not_space (c : Char) (h : isHexDigitChar c = true) : pyIsSpace c = false := by
  have hm : c ∈ "0123456789abcdef".toList := by
    simpa [isHexDigitChar, List.contains] using h
  fin_cases hm <;> decide

/-! ## The Python AST embedding

`ast.ClassDef` / `ast.FunctionDef` / expression statements.  The `id` field
is the explicit entity-ID rendering of CPython object identity (the source
keys dictionaries by AST node object); `ast.dump` does not print identity,
so `dump` below ignores `id`. -/

inductive PyConst where
  | str (s : Line)
  | intLit (n : Int)
  | noneLit
  | boolLit (b : Bool)
deriving DecidableEq

inductive Stmt where
  | classdef (id : Nat) (nm : Line) (body : List Stmt)
  | funcdef (id : Nat) (nm : Line) (args : List Line) (body : List Stmt)
  | exprConst (c : PyConst)
  | passStmt
  | other (tag : Nat)

abbrev PyModule := List Stmt

mutual

def Stmt.beq : Stmt → Stmt → Bool
  | .classdef i n b, .classdef j m c => (i == j) && (n == m) && Stmt.beqList b c
  | .funcdef i n a b, .funcdef j m a' c =>
      (i == j) && (n == m) && (a == a') && Stmt.beqList b c
  | .exprConst c, .exprConst c' => c == c'
  | .passStmt, .passStmt => true
  | .other t, .other t' => t == t'
  | _, _ => false

def Stmt.beqList : List Stmt → List Stmt → Bool
  | [], [] => true
  | s :: ss, t :: ts => Stmt.beq s t && Stmt.beqList ss ts
  | _, _ => false

end

/-- Induction over `Stmt`, recursing through the nested statement lists. -/
def Stmt.strongInd (P : Stmt → Prop)
    (hc : ∀ i nm body, (∀ s ∈ body, P s) → P (.classdef i nm body))
    (hf : ∀ i nm args body, (∀ s ∈ body, P s) → P (.funcdef i nm args body))
    (he : ∀ c, P (.exprConst c)) (hp : P .passStmt) (ho : ∀ t, P (.other t)) :
    ∀ s, P s
  | .classdef i nm body => hc i nm body (fun s hs => Stmt.strongInd P hc hf he hp ho s)
  | .funcdef i nm args body => hf i nm args body (fun s hs => Stmt.strongInd P hc hf he hp ho s)
  | .exprConst c => he c
  | .passStmt => hp
  | .other t => ho t
termination_by s => sizeOf s
decreasing_by
  all_goals simp_wf
  all_goals have := List.sizeOf_lt_of_mem hs
  all_goals omega

theorem Stmt.beqList_iff (b : List Stmt)
    (ih : ∀ s ∈ b, ∀ t, (Stmt.beq s t = true) ↔ s = t) :
    ∀ c, (Stmt.beqList b c = true) ↔ b = c := by
  induction b with
  | nil => intro c; cases c <;> simp [Stmt.beqList]
  | cons s ss ihl =>
    intro c
    cases c with
    | nil => simp [Stmt.beqList]
    | cons t ts =>
      have h1 := ih s (by simp)
      have h2 := ihl (fun u hu => ih u (by simp [hu])) ts
      simp [Stmt.beqList, h1 t, h2]

theorem Stmt.beq_iff : ∀ s t : Stmt, (Stmt.beq s t = true) ↔ s = t := by
  intro s
  induction s using Stmt.strongInd with
  | hc i nm body ih =>
    intro t
    cases t <;> simp [Stmt.beq, Stmt.beqList_iff body ih, and_assoc]
  | hf i nm args body ih =>
    intro t
    cases t <;> simp [Stmt.beq, Stmt.beqList_iff body ih, and_assoc]
  | he c => intro t; cases t <;> simp [Stmt.beq]
  | hp => intro t; cases t <;> simp [Stmt.beq]
  | ho n => intro t; cases t <;> simp [Stmt.beq]

instance : DecidableEq Stmt := fun s t => decidable_of_iff _ (Stmt.beq_iff s t)

def dumpConst : PyConst → Line
  | .str s => "Constant(value=str:".toList ++ s ++ ")".toList
  | .intLit n => "Constant(value=int:".toList ++ (toString n).toList ++ ")".toList
  | .noneLit => "Constant(value=None)".toList
  | .boolLit b => "Constant(value=bool:".toList ++ (toString b).toList ++ ")".toList

/-! `ast.dump(node)`: a canonical structural string of the node.  Field
values (names, arguments, nested statements) are printed; position
attributes and object identity are not, exactly as in `ast.dump` with its
default arguments. -/

mutual

def dump : Stmt → Line
  | .classdef _ nm body =>
      "ClassDef(name=".toList ++ nm ++ ",body=[".toList ++
        pyJoinChar ',' (dumpL body) ++ "])".toList
  | .funcdef _ nm args body =>
      "FunctionDef(name=".toList ++ nm ++ ",args=[".toList ++ pyJoinChar ',' args ++
        "],body=[".toList ++ pyJoinChar ',' (dumpL body) ++ "])".toList
  | .exprConst c => "Expr(value=".toList ++ dumpConst c ++ ")".toList
  | .passStmt => "Pass()".toList
  | .other t => "Other(".toList ++ (toString t).toList ++ ")".toList

def dumpL : List Stmt → List Line
  | [] => []
  | s :: rest => dump s :: dumpL rest

end

def isFuncdefB : Stmt → Bool
  | .funcdef _ _ _ _ => true
  | _ => false

def isClassdefB : Stmt → Bool
  | .classdef _ _ _ => true
  | _ => false

/-- `isinstance(node, (ast.ClassDef, ast.FunctionDef))`. -/
def isDefB (s : Stmt) : Bool := isClassdefB s || isFuncdefB s

def idOf : Stmt → Nat
  | .classdef i _ _ => i
  | .funcdef i _ _ _ => i
  | _ => 0

/-- The raw docstring of a statement body: the first body statement when it
is a bare string-literal expression (`ast.Expr` of `ast.Constant` holding a
`str`), as in CPython's `ast.get_docstring`. -/
def docOfBody : List Stmt → Option Line
  | .exprConst (.str s) :: _ => some s
  | _ => none

/-- `ast.get_docstring(node)` (with its default `clean=True`, which applies
`inspect.cleandoc`). -/
def get_docstring : Stmt → Option Line
  | .classdef _ _ body => (docOfBody body).map cleandoc
  | .funcdef _ _ _ body => (docOfBody body).map cleandoc
  | _ => none

/-- `PythonExtractor.set_docstring`: build `ast.Expr(ast.Constant(docstring))`
and `node.body.insert(0, ...)`. -/
def set_docstring (node : Stmt) (docstring : Line) : Stmt :=
  match node with
  | .classdef i nm body => .classdef i nm (.exprConst (.str docstring) :: body)
  | .funcdef i nm args body => .funcdef i nm args (.exprConst (.str docstring) :: body)
  | s => s

/-- `PythonExtractor.update_docstring`: `node.body[0] = ast.Expr(ast.Constant(docstring))`.
Only reached when a docstring is present, so the body is nonempty. -/
def update_docstring (node : Stmt) (docstring : Line) : Stmt :=
  match node with
  | .classdef i nm body => .classdef i nm (.exprConst (.str docstring) :: body.tail)
  | .funcdef i nm args body => .funcdef i nm args (.exprConst (.str docstring) :: body.tail)
  | s => s

/-- `del node.body[0]` on the deep copy inside `generate_func_hash`.
Only reached when a docstring is present, so the body is nonempty. -/
def delFirstBody : Stmt → Stmt
  | .classdef i nm body => .classdef i nm body.tail
  | .funcdef i nm args body => .funcdef i nm args body.tail
  | s => s

/-- `self.template_message` — the sentinel marker. -/
def template_message : Line := "This is an autogenerated docstring".toList

/-- `PythonExtractor.generate_func_hash`: when `has_documentation`, hash the
dump of a copy with the first body statement deleted; otherwise hash the
dump of the node as-is. -/
def generate_func_hash (node : Stmt) (has_documentation : Bool) : Line :=
  sha256hex (dump (if has_documentation then delFirstBody node else node))

/-- `PythonExtractor.parse_doc`: `os.linesep.join([...])`.  The Python list
literal ends with the two adjacent literals `"" ""`, which concatenate into
a single empty string, so the list has six elements. -/
def parse_doc (text : Line) (hash : Line) : Line :=
  pyJoinChar '\n' [[], text, [], template_message, "hash ".toList ++ hash, []]

/-- Python truthiness of the `documentation` variable (`None` or a string):
`None` and the empty string are falsy. -/
def pyTruthy : Option Line → Bool
  | none => false
  | some l => !l.isEmpty

/-- `PythonExtractor.generate_doc`, the per-entity freshness controller.

The documentation oracle (`api_find_docstring`, which forwards the entity's
source, kind and parent source to the external `AIDocumenter`) is the
spec's external-collaborator boundary; it is a parameter `oracle` giving
the prose the documenter returns for the entity with a given `id`.

Returns the (possibly rewritten) node, the `modified` flag the source
returns, and how many times the oracle was invoked. -/
def generate_doc (oracle : Nat → Line) (node : Stmt) : Stmt × Bool × Nat :=
  let documentation := get_docstring node
  -- `hash = self.generate_func_hash(class_node, has_documentation=not (documentation is None))`
  let hash := generate_func_hash node documentation.isSome
  -- `if documentation and self.template_message in documentation:`
  let step1 : Stmt × Bool × Nat :=
    if pyTruthy documentation && containsSub (documentation.getD []) template_message then
      -- `if node_type == Type.FUNCTIONS:`
      if isFuncdefB node then
        -- `previous_hash = documentation.split(' ')[-1].strip()`
        let previous_hash := lastToken (documentation.getD [])
        if ¬ (previous_hash = hash) then
          (update_docstring node (parse_doc (oracle (idOf node)) hash), true, 1)
        else (node, false, 0)
      else (node, false, 0)
    else (node, false, 0)
  -- `if not documentation:` (sequential second test, not an `elif`)
  if !pyTruthy documentation then
    (set_docstring step1.1 (parse_doc (oracle (idOf node)) hash), true, step1.2.2 + 1)
  else step1

/-! ## `ParentClassFinder` (an `ast.NodeVisitor`)

`visit_ClassDef` records `parent_classes[node] = None`, sets
`current_class` to the node, visits children, then sets `current_class`
to `None` (not to the previous value).  `visit_FunctionDef` records the
current class (or `None`) and visits children with `current_class`
unchanged; `current_class` is visitor instance state, so a nested class
inside the function body resets it for the remainder of the traversal.
Entries are in visit (preorder) order, as dictionary insertion order. -/

mutual

def visitS (cur : Option Stmt) : Stmt → List (Stmt × Option Stmt) × Option Stmt
  | .classdef i nm body =>
      -- `self.current_class = node; self.parent_classes[node] = None;
      --  self.generic_visit(node); self.current_class = None`
      let node := Stmt.classdef i nm body
      let (es, _) := visitL (some node) body
      ((node, none) :: es, none)
  | .funcdef i nm args body =>
      -- `parent_classes[node] = current_class if current_class else None;
      --  self.generic_visit(node)`
      let node := Stmt.funcdef i nm args body
      let (es, cur') := visitL cur body
      ((node, cur) :: es, cur')
  | _ => ([], cur)

def visitL (cur : Option Stmt) : List Stmt → List (Stmt × Option Stmt) × Option Stmt
  | [] => ([], cur)
  | s :: rest =>
      let (es, cur') := visitS cur s
      let (es', cur'') := visitL cur' rest
      (es ++ es', cur'')

end

/-- `finder = ParentClassFinder(); finder.visit(tree)` on a parsed module:
the resulting `parent_classes` table as an association list in insertion
order (keys are the def nodes themselves, as the source keys the dict by
node object). -/
def parentsOf (m : PyModule) : List (Stmt × Option Stmt) := (visitL none m).1

/-! ## The driver: `PythonExtractor.extract` -/

def childrenOf : Stmt → List Stmt
  | .classdef _ _ body => body
  | .funcdef _ _ _ body => body
  | _ => []

mutual

def stmtCount : Stmt → Nat
  | .classdef _ _ body => 1 + stmtCountL body
  | .funcdef _ _ _ body => 1 + stmtCountL body
  | _ => 1

def stmtCountL : List Stmt → Nat
  | [] => 0
  | s :: rest => stmtCount s + stmtCountL rest

end

def countL (l : List Stmt) : Nat := stmtCountL l

/-- `ast.walk(tree)` is a breadth-first (deque) traversal of all nodes;
`extract_classes_and_functions` keeps the `ClassDef`/`FunctionDef` nodes in
encounter order (dict insertion order).  Level-order formulation with fuel
bounding the depth. -/
def walkDefsAux : Nat → List Stmt → List Stmt
  | 0, _ => []
  | _, [] => []
  | fuel + 1, frontier =>
      frontier.filter isDefB ++ walkDefsAux fuel (frontier.flatMap childrenOf)

def walkDefs (m : PyModule) : List Stmt := walkDefsAux (countL m + 1) m

/-! All def nodes of a tree, in document order (used to state hypotheses
ranging over every entity of a file). -/

mutual

def defsOfS : Stmt → List Stmt
  | .classdef i nm body => Stmt.classdef i nm body :: allDefsL body
  | .funcdef i nm args body => Stmt.funcdef i nm args body :: allDefsL body
  | _ => []

def allDefsL : List Stmt → List Stmt
  | [] => []
  | s :: rest => defsOfS s ++ allDefsL rest

end

/-! Looking up a node by identity (explicit-ID rendering of the source's
node-object dict keys). -/

mutual

def findByIdS (i : Nat) : Stmt → Option Stmt
  | .classdef j nm body =>
      if j = i then some (.classdef j nm body) else findByIdL i body
  | .funcdef j nm args body =>
      if j = i then some (.funcdef j nm args body) else findByIdL i body
  | _ => none

def findByIdL (i : Nat) : List Stmt → Option Stmt
  | [] => none
  | s :: rest =>
      match findByIdS i s with
      | some r => some r
      | none => findByIdL i rest

end

/-! In-place mutation of the node with identity `i` (all references to the
object observe the update). -/

mutual

def replaceS (i : Nat) (new : Stmt) : Stmt → Stmt
  | .classdef j nm body =>
      if j = i then new else .classdef j nm (replaceL i new body)
  | .funcdef j nm args body =>
      if j = i then new else .funcdef j nm args (replaceL i new body)
  | s => s

def replaceL (i : Nat) (new : Stmt) : List Stmt → List Stmt
  | [] => []
  | s :: rest => replaceS i new s :: replaceL i new rest

end

/-- The per-file entity loop of `extract`:
`for func_node in extracted_content.values(): modified = self.generate_doc(func_node) or modified`.
Each entity is looked up by identity in the current (mutated) tree,
`generate_doc` runs on it, and its mutation is written back.  Also counts
oracle invocations. -/
def processEntities (oracle : Nat → Line) (ids : List Nat) (m : PyModule) :
    PyModule × Bool × Nat :=
  ids.foldl
    (fun st i =>
      let m := st.1
      match findByIdL i m with
      | some node =>
          let r := generate_doc oracle node
          (replaceL i r.1 m, r.2.1 || st.2.1, st.2.2 + r.2.2)
      | none => st)
    (m, false, 0)

/-- A source file's content: either syntactically invalid text, or text
that parses to the given tree.  (File bytes are abstracted by their parse
result; `ast.unparse` + `black.format_str` of a tree yield content parsing
back to that tree.) -/
inductive PyContent where
  | malformed (raw : Nat)
  | code (m : PyModule)
deriving DecidableEq

/-- `ast.parse`: raises `SyntaxError` (`none`) on invalid source. -/
def pyParse : PyContent → Option PyModule
  | .malformed _ => none
  | .code m => some m

/-- One file's pass of `PythonExtractor.extract`: read, parse, extract the
entities (`ast.walk` order), run `generate_doc` on each, and only if some
entity was modified, unparse + black-format + write the file.  `none` when
`ast.parse` raised.  Returns (new file content, whether the file was
written, oracle call count). -/
def extractFile (oracle : Nat → Line) (content : PyContent) :
    Option (PyContent × Bool × Nat) :=
  match pyParse content with
  | none => none
  | some m =>
      let r := processEntities oracle ((walkDefs m).map idOf) m
      if r.2.1 then some (.code r.1, true, r.2.2)
      else some (content, false, r.2.2)

/-- The driver loop of `extract` over the discovered files, in order.
There is no try/except around the per-file body, so an `ast.parse` failure
propagates out of `extract`, aborting the loop: the failing file and all
later files are left untouched.  Returns the final contents of every file
and whether the run aborted with an exception. -/
def runExtract (oracle : Nat → Line) :
    List (Nat × PyContent) → List (Nat × PyContent) × Bool
  | [] => ([], false)
  | (p, c) :: rest =>
      match extractFile oracle c with
      | none => ((p, c) :: rest, true)
      | some r =>
          let rec' := runExtract oracle rest
          ((p, r.1) :: rec'.1, rec'.2)

/-! ## `AIDocumenter.normalize_left_strip` -/

inductive PyType where
  | functions
  | classes
deriving DecidableEq

def mixesList : List Line := ["====".toList, "----".toList]

/-- The element of `['====', '----']` that the left-stripped line starts
with, if any.  (The source iterates over both; a line can start with at
most one of them, so the loop body runs at most once per line.) -/
def whichMixes (stripped : Line) : Option Line :=
  mixesList.find? (fun mx => mx.isPrefixOf stripped)

/-- One iteration of the first loop of `normalize_left_strip`
(`for i, line in enumerate(lines)`), acting on the current lines and the
running `line_strip`.  `none` is a raised `IndexError` (`prev_line[0]`
evaluated on an empty stripped previous line). -/
def normStep (t : PyType) (st : List Line × Option Nat) (i : Nat) :
    Option (List Line × Option Nat) :=
  let lines := st.1
  let line := lines.getD i []
  let lines_stripped := pyLstrip line
  match whichMixes lines_stripped with
  | none => some st
  | some mixes =>
    -- `index = line.find(mixes)` (the startswith guard makes it ≥ 0)
    let index := (subFind mixes line).getD 0
    -- `if line_strip: line_strip = min(index, line_strip)
    --  else: line_strip = index` — `line_strip` is falsy when None OR 0
    let line_strip :=
      match st.2 with
      | some k => if k ≠ 0 then some (min index k) else some index
      | none => some index
    -- `if i > 0:`
    if i = 0 then some (lines, line_strip)
    else
      -- `prev_line = lines[i - 1].strip()` (reads the current, possibly
      -- already rewritten, previous row)
      let prev_line := pyStrip (lines.getD (i - 1) [])
      -- `if Type.FUNCTIONS == type and '====' in line:` insert "Function "
      -- ahead of a bare-identifier heading; `prev_line.index(prev_line[0])`
      -- raises IndexError when `prev_line` is empty
      let ins : Option (List Line × Line) :=
        if t = PyType.functions ∧ containsSub line ("====".toList) then
          if ¬ (prev_line.contains ' ') then
            match prev_line with
            | [] => none
            | c :: _ =>
              let first_char_index := (subFind [c] prev_line).getD 0
              let raw := lines.getD (i - 1) []
              let raw' := raw.take first_char_index ++ "Function ".toList ++
                raw.drop first_char_index
              some (lines.set (i - 1) raw', pyStrip raw')
          else some (lines, prev_line)
        else some (lines, prev_line)
      match ins with
      | none => none
      | some (lines, prev_line) =>
        -- `num_characters = len(prev_line); current_line = line.strip()`
        let num_characters := prev_line.length
        let current_line := pyStrip line
        -- `if len(prev_line) > len(current_line):` rewrite the underline row
        if prev_line.length > current_line.length then
          let characters := List.replicate num_characters (current_line.getD 0 ' ')
          some (lines.set i (line.take index ++ characters), line_strip)
        else some (lines, line_strip)

/-- The whole first loop of `normalize_left_strip`. -/
def normPass1 (t : PyType) (lines : List Line) : Option (List Line × Option Nat) :=
  (List.range lines.length).foldlM (normStep t) (lines, none)

/-- One line of the second loop: `first_char = lines[i].lstrip()`; blank
lines are skipped (`continue`); otherwise `text_index =
lines[i].find(first_char[0])` and `lines[i] = lines[i][min(line_strip,
text_index):]`. -/
def stripRow (line_strip : Nat) (l : Line) : Line :=
  match pyLstrip l with
  | [] => l
  | c :: _ =>
    let text_index := (subFind [c] l).getD 0
    let max_stripping := min line_strip text_index
    l.drop max_stripping

/-- The second loop of `normalize_left_strip`. -/
def stripPass (line_strip : Nat) (lines : List Line) : List Line :=
  lines.map (stripRow line_strip)

/-- `AIDocumenter.normalize_left_strip(txt, type)`; `none` is a raised
`IndexError`.  Note that `if not line_strip:` treats a zero margin like
None: the untouched input `txt` is returned, discarding whatever underline
fixes the first loop made. -/
def normalize_left_strip (t : PyType) (txt : Line) : Option Line :=
  let lines := pySplitOnChar '\n' txt
  match normPass1 t lines with
  | none => none
  | some st =>
    match st.2 with
    | none => some txt
    | some 0 => some txt
    | some k => some (pyJoinChar '\n' (stripPass k st.1))

/-! ## `AIDocumenter.__call__`

The chain invocation (prompt template piped into the LLM) is the external
oracle; the call protocol around it is embedded: build the template input,
select the chain by entity kind, strip the response, then evaluate
`self.normalize_left_strip(response)` — one positional argument, while
`normalize_left_strip(self, txt, type)` requires two.  CPython raises
`TypeError: normalize_left_strip() missing 1 required positional
argument: 'type'` at that call. -/

inductive PyErr where
  | typeErrorMissingArg
  | indexError
deriving DecidableEq

structure TemplateInput where
  function : Line
  context : Option Line
deriving DecidableEq

/-- The bound method `normalize_left_strip` through Python's call
protocol: applied to an explicit argument list, it raises `TypeError`
unless both required positional parameters `txt` and `type` are bound. -/
def normalizeCallProtocol : List (Line ⊕ PyType) → Except PyErr Line
  | [Sum.inl txt, Sum.inr t] =>
      match normalize_left_strip t txt with
      | none => .error .indexError
      | some r => .ok r
  | _ => .error .typeErrorMissingArg

/-- `AIDocumenter.__call__(function_source, type, parent_source)`.
`invoke` is the external `chain.invoke`.  Returns the documentation text
or the raised exception. -/
def aiDocumenterCall (invoke : TemplateInput → Line) (function_source : Line)
    (t : PyType) (parent_source : Option Line) : Except PyErr Line :=
  -- `template_input = {"function": function_source}`, plus for functions a
  -- `context` entry: the parent source when truthy, else the fixed sentence
  let template_input : TemplateInput :=
    if t = PyType.functions then
      if pyTruthy parent_source then
        { function := function_source, context := parent_source }
      else
        { function := function_source,
          context := some ("This function is not part of a class.".toList) }
    else { function := function_source, context := none }
  -- `response = chain.invoke(template_input).strip()`
  let response := pyStrip (invoke template_input)
  -- `response = self.normalize_left_strip(response)` — a single argument
  match normalizeCallProtocol [Sum.inl response] with
  | .error e => .error e
  | .ok r => .ok r

/-! ## General lemmas about the string primitives -/

theorem pySplitOnChar_ne_nil (sep : Char) (l : Line) : pySplitOnChar sep l ≠ [] := by
  induction l with
  | nil => simp [pySplitOnChar]
  | cons c tl ih =>
    by_cases h : c = sep
    · simp [pySplitOnChar, h]
    · simp only [pySplitOnChar, if_neg h]
      cases hs : pySplitOnChar sep tl with
      | nil => simp
      | cons seg rest => simp

theorem pySplitOnChar_append (sep : Char) (a b : Line) :
    pySplitOnChar sep (a ++ sep :: b) = pySplitOnChar sep a ++ pySplitOnChar sep b := by
  induction a with
  | nil => simp [pySplitOnChar]
  | cons c tl ih =>
    by_cases h : c = sep
    · simp [pySplitOnChar, h, ih]
    · simp only [List.cons_append, pySplitOnChar, if_neg h, List.append_eq]
      rw [ih]
      cases hs : pySplitOnChar sep tl with
      | nil => exact absurd hs (pySplitOnChar_ne_nil sep tl)
      | cons seg rest => simp

theorem pySplitOnChar_no_sep (sep : Char) (l : Line) (h : sep ∉ l) :
    pySplitOnChar sep l = [l] := by
  induction l with
  | nil => simp [pySplitOnChar]
  | cons c tl ih =>
    simp only [List.mem_cons, not_or] at h
    have hc : ¬ (c = sep) := fun hh => h.1 hh.symm
    simp only [pySplitOnChar, if_neg hc, ih h.2]

/-- A string that contains `sub` as a factor contains it in the
`str.find` / `in` sense. -/
theorem containsSub_append (a sub b : Line) :
    containsSub (a ++ (sub ++ b)) sub = true := by
  induction a with
  | nil =>
    simp only [containsSub, List.nil_append]
    have : sub.isPrefixOf (sub ++ b) = true := by
      rw [List.isPrefixOf_iff_prefix]
      exact List.prefix_append _ _
    cases sub with
    | nil => cases b <;> simp [subFind, List.isPrefixOf]
    | cons s stl => simp [subFind, this]
  | cons c tl ih =>
    simp only [containsSub, List.cons_append, subFind, List.append_eq]
    by_cases h : sub.isPrefixOf (c :: (tl ++ (sub ++ b)))
    · simp [h]
    · rw [if_neg h]
      cases hsf : subFind sub (tl ++ (sub ++ b)) with
      | none => rw [containsSub, hsf] at ih; simp at ih
      | some v => simp

theorem pyLstrip_nil : pyLstrip [] = [] := rfl

theorem pyStrip_nil : pyStrip [] = [] := rfl

/-- `takeWhile`-length prefix of `l` is exactly the whitespace prefix. -/
def wsCount (l : Line) : Nat := (l.takeWhile pyIsSpace).length

theorem take_wsCount (l : Line) : l.take (wsCount l) = l.takeWhile pyIsSpace := by
  induction l with
  | nil => rfl
  | cons c tl ih =>
    by_cases h : pyIsSpace c
    · simp [wsCount, List.takeWhile_cons, h] at ih ⊢
      exact ih
    · simp [wsCount, List.takeWhile_cons, h]

theorem wsCount_le_length (l : Line) : wsCount l ≤ l.length := by
  simpa [wsCount] using (List.takeWhile_sublist (l := l) pyIsSpace).length_le

theorem pyLstrip_eq_drop_wsCount (l : Line) : pyLstrip l = l.drop (wsCount l) := by
  induction l with
  | nil => rfl
  | cons c tl ih =>
    by_cases h : pyIsSpace c
    · simpa [pyLstrip, wsCount, List.takeWhile_cons, h, List.dropWhile_cons] using ih
    · simp [pyLstrip, wsCount, List.takeWhile_cons, h, List.dropWhile_cons]

/-- Dropping at most the whitespace prefix does not change `lstrip`. -/
theorem pyLstrip_drop (l : Line) (j : Nat) (h : j ≤ wsCount l) :
    pyLstrip (l.drop j) = pyLstrip l := by
  induction l generalizing j with
  | nil => simp
  | cons c tl ih =>
    cases j with
    | zero => simp
    | succ j' =>
      by_cases hc : pyIsSpace c
      · have h' : j' ≤ wsCount tl := by
          simp only [wsCount, List.takeWhile_cons, if_pos hc, List.length_cons] at h ⊢
          omega
        simp only [List.drop_succ_cons, pyLstrip, List.dropWhile_cons, if_pos hc]
        simpa [pyLstrip] using ih j' h'
      · exfalso
        simp only [wsCount, List.takeWhile_cons, if_neg hc, List.length_nil] at h
        omega

/-! ## The stamped documentation block under `inspect.cleandoc` -/

theorem pyLstrip_cons_no_ws (c : Char) (tl : Line) (hc : pyIsSpace c = false) :
    pyLstrip (c :: tl) = c :: tl := by
  simp [pyLstrip, List.dropWhile_cons, hc]

theorem pyDropWhile_no (p : Char → Bool) (l : Line) (h : ∀ c ∈ l, p c = false) :
    l.dropWhile p = l := by
  cases l with
  | nil => rfl
  | cons c tl => simp [List.dropWhile_cons, h c (List.mem_cons_self c tl)]

theorem pyLstrip_no_ws (l : Line) (h : ∀ c ∈ l, pyIsSpace c = false) :
    pyLstrip l = l := pyDropWhile_no pyIsSpace l h

theorem pyRstrip_no_ws (l : Line) (h : ∀ c ∈ l, pyIsSpace c = false) :
    pyRstrip l = l := by
  unfold pyRstrip
  rw [pyDropWhile_no pyIsSpace l.reverse (fun c hc => h c (List.mem_reverse.mp hc))]
  exact List.reverse_reverse l

theorem pyStrip_no_ws (l : Line) (h : ∀ c ∈ l, pyIsSpace c = false) :
    pyStrip l = l := by
  rw [pyStrip, pyLstrip_no_ws l h, pyRstrip_no_ws l h]

theorem getLastD_concat' (X : List Line) (y : Line) (d : Line) :
    (X ++ [y]).getLastD d = y := by
  induction X generalizing d with
  | nil => rfl
  | cons a tl ih => simpa [List.getLastD] using ih a

theorem lastToken_append_space (a h : Line) (hs : ' ' ∉ h)
    (hws : ∀ c ∈ h, pyIsSpace c = false) :
    lastToken (a ++ ' ' :: h) = h := by
  unfold lastToken
  rw [pySplitOnChar_append, pySplitOnChar_no_sep ' ' h hs, getLastD_concat']
  exact pyStrip_no_ws h hws

theorem pyJoinChar_cons_ne (sep : Char) (a : Line) (L : List Line) (h : L ≠ []) :
    pyJoinChar sep (a :: L) = a ++ sep :: pyJoinChar sep L := by
  cases L with
  | nil => exact absurd rfl h
  | cons b tl => rfl

theorem pyJoinChar_decomp_two (A : List Line) (x y : Line) :
    ∃ pre, pyJoinChar '\n' (A ++ [x, y]) = pre ++ (x ++ '\n' :: y) := by
  induction A with
  | nil => exact ⟨[], rfl⟩
  | cons a tl ih =>
    obtain ⟨pre, hp⟩ := ih
    refine ⟨a ++ '\n' :: pre, ?_⟩
    rw [List.cons_append, pyJoinChar_cons_ne _ _ _ (by simp), hp]
    simp

theorem dropWhile_append_cases (p : Line → Bool) (X Y : List Line) :
    List.dropWhile p (X ++ Y) = List.dropWhile p X ++ Y ∨
    (List.dropWhile p X = [] ∧ List.dropWhile p (X ++ Y) = List.dropWhile p Y) := by
  induction X with
  | nil => right; exact ⟨rfl, rfl⟩
  | cons a tl ih =>
    by_cases hp : p a
    · simpa [List.dropWhile_cons, hp] using ih
    · left; simp [List.dropWhile_cons, hp]

theorem expandTabsAux_append_newline (a b : Line) (col : Nat) :
    expandTabsAux col (a ++ '\n' :: b) =
      expandTabsAux col a ++ '\n' :: expandTabsAux 0 b := by
  induction a generalizing col with
  | nil => simp [expandTabsAux]
  | cons c tl ih =>
    by_cases ht : c = '\t'
    · simp [expandTabsAux, ht, ih]
    · by_cases hn : (c = '\n' || c = '\r') = true
      · simp [expandTabsAux, ht, hn, ih]
      · simp [expandTabsAux, ht, hn, ih]

theorem expandTabsAux_no_tab (l : Line) (h : '\t' ∉ l) :
    ∀ col, expandTabsAux col l = l := by
  induction l with
  | nil => intro col; rfl
  | cons c tl ih =>
    intro col
    simp only [List.mem_cons, not_or] at h
    have ht : ¬ (c = '\t') := fun hh => h.1 hh.symm
    by_cases hn : (c = '\n' || c = '\r') = true
    · simp [expandTabsAux, ht, hn, ih h.2]
    · simp [expandTabsAux, ht, hn, ih h.2]

theorem marginStep_blank (acc : Option Nat) : marginStep acc [] = acc := by
  simp [marginStep, pyLstrip]

theorem marginStep_template (acc : Option Nat) :
    marginStep acc template_message = some 0 := by
  have h1 : (pyLstrip template_message).length = 34 := by decide
  have h2 : template_message.length = 34 := by decide
  cases acc with
  | none => simp [marginStep, h1, h2]
  | some m => simp [marginStep, h1, h2]

theorem marginStep_hashline (h : Line) :
    marginStep (some 0) ("hash ".toList ++ h) = some 0 := by
  have hls : pyLstrip ("hash ".toList ++ h) = "hash ".toList ++ h := by
    have : ("hash ".toList ++ h) = 'h' :: ("ash ".toList ++ h) := rfl
    rw [this, pyLstrip_cons_no_ws _ _ (by decide)]
  simp [marginStep, hls]

/-- `cleandoc` of a freshly stamped block: some list of (possibly trimmed)
prose lines, then the sentinel line, then the `hash <digest>` line. -/
theorem cleandoc_parse_doc_shape (text h : Line) (htab : '\t' ∉ h) (hnl : '\n' ∉ h) :
    ∃ A : List Line,
      cleandoc (parse_doc text h) =
        pyJoinChar '\n' (A ++ [template_message, "hash ".toList ++ h]) := by
  have hraw : parse_doc text h =
      '\n' :: (text ++ '\n' :: '\n' ::
        (template_message ++ '\n' :: (("hash ".toList ++ h) ++ ['\n']))) := by
    simp [parse_doc, pyJoinChar]
  have htab_tm : '\t' ∉ template_message := by decide
  have htab_hl : '\t' ∉ ("hash ".toList ++ h) := by
    intro hm
    rcases List.mem_append.mp hm with hm1 | hm2
    · revert hm1; decide
    · exact htab hm2
  have hnl_tm : '\n' ∉ template_message := by decide
  have hnl_hl : '\n' ∉ ("hash ".toList ++ h) := by
    intro hm
    rcases List.mem_append.mp hm with hm1 | hm2
    · revert hm1; decide
    · exact hnl hm2
  have s1 : ∀ r : Line, expandTabsAux 0 ('\n' :: r) = '\n' :: expandTabsAux 0 r := by
    intro r; rfl
  have s2 : ∀ X : Line, pySplitOnChar '\n' ('\n' :: X) = [] :: pySplitOnChar '\n' X := by
    intro X; rfl
  have hexp : expandTabsAux 0 (parse_doc text h) =
      '\n' :: (expandTabsAux 0 text ++ '\n' :: '\n' ::
        (template_message ++ '\n' :: (("hash ".toList ++ h) ++ ['\n']))) := by
    rw [hraw, s1, expandTabsAux_append_newline, s1, expandTabsAux_append_newline,
        expandTabsAux_no_tab template_message htab_tm]
    have hw : (("hash ".toList ++ h) ++ ['\n'] : Line) = ("hash ".toList ++ h) ++ '\n' :: [] := rfl
    rw [hw, expandTabsAux_append_newline, expandTabsAux_no_tab _ htab_hl]
    rfl
  have hsplit : pySplitOnChar '\n' (expandTabsAux 0 (parse_doc text h)) =
      [] :: (pySplitOnChar '\n' (expandTabsAux 0 text) ++
        ([] :: template_message :: (("hash ".toList ++ h) :: [[]]))) := by
    rw [hexp, s2, pySplitOnChar_append, s2, pySplitOnChar_append,
        pySplitOnChar_no_sep '\n' template_message hnl_tm]
    have hw : (("hash ".toList ++ h) ++ ['\n'] : Line) = ("hash ".toList ++ h) ++ '\n' :: [] := rfl
    rw [hw, pySplitOnChar_append, pySplitOnChar_no_sep '\n' _ hnl_hl]
    simp [pySplitOnChar]
  have hmargin : (pySplitOnChar '\n' (expandTabsAux 0 text) ++
      ([] :: template_message :: (("hash ".toList ++ h) :: [[]]))).foldl marginStep none
      = some 0 := by
    rw [List.foldl_append]
    simp only [List.foldl_cons, List.foldl_nil]
    rw [marginStep_blank, marginStep_template, marginStep_hashline]
  -- run the rest of cleandoc
  simp only [cleandoc]
  rw [hsplit]
  simp only [List.tail_cons]
  rw [hmargin]
  simp only [List.drop_zero, pyLstrip_nil, List.map_id']
  -- trailing blank-line removal
  have htm_ne : (template_message.isEmpty) = false := by decide
  have hhl_ne : (("hash ".toList ++ h).isEmpty) = false := rfl
  rw [show ([] : Line) :: (pySplitOnChar '\n' (expandTabsAux 0 text) ++
        ([] :: template_message :: (("hash ".toList ++ h) :: [[]]))) =
      ([] : Line) :: (pySplitOnChar '\n' (expandTabsAux 0 text) ++
        [([] : Line), template_message, "hash ".toList ++ h, []]) from rfl]
  simp only [List.reverse_cons, List.reverse_append, List.reverse_nil, List.nil_append,
    List.append_assoc, List.cons_append, List.singleton_append]
  rw [List.dropWhile_cons, List.dropWhile_cons]
  simp only [List.isEmpty_nil, if_true, hhl_ne, Bool.false_eq_true, if_false]
  simp only [List.reverse_cons, List.reverse_append, List.reverse_reverse, List.reverse_nil,
    List.nil_append, List.append_assoc, List.cons_append, List.singleton_append]
  rw [List.dropWhile_cons]
  simp only [List.isEmpty_nil, if_true]
  have hassoc : pySplitOnChar '\n' (expandTabsAux 0 text) ++
      [([] : Line), template_message, "hash ".toList ++ h] =
      (pySplitOnChar '\n' (expandTabsAux 0 text) ++ [([] : Line)]) ++
        [template_message, "hash ".toList ++ h] := by
    simp
  rw [hassoc]
  rcases dropWhile_append_cases (fun (l : Line) => l.isEmpty)
      (pySplitOnChar '\n' (expandTabsAux 0 text) ++ [([] : Line)])
      [template_message, "hash ".toList ++ h] with hcase | hcase
  · exact ⟨_, by rw [hcase]⟩
  · refine ⟨[], ?_⟩
    rw [hcase.2, List.dropWhile_cons]
    simp [htm_ne]

/-- The cleaned stamped block is non-empty, contains the sentinel, and its
last token is exactly the stamped digest. -/
theorem cleandoc_parse_doc_facts (text h : Line)
    (hhex : ∀ c ∈ h, isHexDigitChar c = true) :
    cleandoc (parse_doc text h) ≠ [] ∧
    containsSub (cleandoc (parse_doc text h)) template_message = true ∧
    lastToken (cleandoc (parse_doc text h)) = h := by
  have htab : '\t' ∉ h := fun hm => absurd (hhex _ hm) (by decide)
  have hnl : '\n' ∉ h := fun hm => absurd (hhex _ hm) (by decide)
  have hsp : ' ' ∉ h := fun hm => absurd (hhex _ hm) (by decide)
  have hws : ∀ c ∈ h, pyIsSpace c = false := fun c hc => isHex_not_space c (hhex c hc)
  obtain ⟨A, hA⟩ := cleandoc_parse_doc_shape text h htab hnl
  obtain ⟨pre, hpre⟩ := pyJoinChar_decomp_two A template_message ("hash ".toList ++ h)
  rw [hA, hpre]
  refine ⟨?_, ?_, ?_⟩
  · intro hempty
    rw [List.append_eq_nil] at hempty
    have := hempty.2
    simp [template_message] at this
  · exact containsSub_append pre template_message _
  · have hre : pre ++ (template_message ++ '\n' :: ("hash ".toList ++ h)) =
        (pre ++ template_message ++ '\n' :: "hash".toList) ++ ' ' :: h := by
      simp [template_message]
    rw [hre]
    exact lastToken_append_space _ h hsp hws

/-- The raw stamped string, as a list of lines, has the sentinel line and
the `hash <digest>` line as elements. -/
theorem parse_doc_lines (text h : Line) (hnl : '\n' ∉ h) :
    template_message ∈ pySplitOnChar '\n' (parse_doc text h) ∧
    ("hash ".toList ++ h) ∈ pySplitOnChar '\n' (parse_doc text h) := by
  have hnl_hl : '\n' ∉ ("hash ".toList ++ h) := by
    intro hm
    rcases List.mem_append.mp hm with hm1 | hm2
    · revert hm1; decide
    · exact hnl hm2
  have hraw : parse_doc text h =
      ([] : Line) ++ '\n' :: (text ++ '\n' :: (([] : Line) ++ '\n' ::
        (template_message ++ '\n' :: (("hash ".toList ++ h) ++ '\n' :: ([] : Line))))) := by
    simp [parse_doc, pyJoinChar]
  rw [hraw, pySplitOnChar_append, pySplitOnChar_append, pySplitOnChar_append,
      pySplitOnChar_append, pySplitOnChar_no_sep '\n' template_message (by decide)]
  have hw : ("hash ".toList ++ h ++ (['\n'] : Line)) =
      ("hash ".toList ++ h) ++ '\n' :: ([] : Line) := by simp
  rw [hw, pySplitOnChar_append, pySplitOnChar_no_sep '\n' _ hnl_hl]
  simp

/-! ## Branch lemmas for `generate_doc` -/

theorem pyTruthy_some_ne (d : Line) (h : d ≠ []) : pyTruthy (some d) = true := by
  cases d with
  | nil => exact absurd rfl h
  | cons a l => rfl

/-- Missing state: no docstring at all → generate, stamp with the
no-documentation fingerprint, insert, report modified, one oracle call. -/
theorem generate_doc_missing (oracle : Nat → Line) (n : Stmt)
    (hdoc : get_docstring n = none) :
    generate_doc oracle n =
      (set_docstring n (parse_doc (oracle (idOf n)) (generate_func_hash n false)),
        true, 1) := by
  unfold generate_doc
  rw [hdoc]
  simp [pyTruthy]

/-- Fresh state (and the class-with-sentinel state): sentinel present and,
for functions, stamped digest equal to the current fingerprint → no
action, not modified, no oracle call. -/
theorem generate_doc_fresh (oracle : Nat → Line) (n : Stmt) (d : Line)
    (hd : get_docstring n = some d) (hne : d ≠ [])
    (hsent : containsSub d template_message = true)
    (hhash : isFuncdefB n = true → lastToken d = generate_func_hash n true) :
    generate_doc oracle n = (n, false, 0) := by
  unfold generate_doc
  rw [hd]
  simp only [Option.isSome_some, Option.getD_some, pyTruthy_some_ne d hne, hsent,
    Bool.and_self, Bool.not_true, Bool.true_and, if_true]
  by_cases hf : isFuncdefB n = true
  · simp [hf, hhash hf]
  · simp [hf]

/-- Stale state for a Function entity: sentinel present, stamped digest
differs → regenerate, re-stamp, replace the first body statement, report
modified, one oracle call. -/
theorem generate_doc_stale_func (oracle : Nat → Line) (n : Stmt) (d : Line)
    (hd : get_docstring n = some d) (hne : d ≠ [])
    (hsent : containsSub d template_message = true)
    (hf : isFuncdefB n = true)
    (hmis : lastToken d ≠ generate_func_hash n true) :
    generate_doc oracle n =
      (update_docstring n (parse_doc (oracle (idOf n)) (generate_func_hash n true)),
        true, 1) := by
  unfold generate_doc
  rw [hd]
  simp [pyTruthy_some_ne d hne, hsent, hf, hmis]

/-- Human-authored documentation: non-empty, no sentinel → untouched. -/
theorem generate_doc_human (oracle : Nat → Line) (n : Stmt) (d : Line)
    (hd : get_docstring n = some d) (hne : d ≠ [])
    (hnosent : containsSub d template_message = false) :
    generate_doc oracle n = (n, false, 0) := by
  unfold generate_doc
  rw [hd]
  simp [pyTruthy_some_ne d hne, hnosent]

/-- A docstring that cleans to the empty string is falsy: the entity is
treated as missing documentation — a fresh stamped block is generated and
INSERTED in front of the existing empty docstring (which stays behind as
the second body statement), and the entity is reported modified.  Note the
fingerprint is nevertheless computed with `has_documentation=True`. -/
theorem generate_doc_empty_doc (oracle : Nat → Line) (n : Stmt)
    (hd : get_docstring n = some []) :
    generate_doc oracle n =
      (set_docstring n (parse_doc (oracle (idOf n)) (generate_func_hash n true)),
        true, 1) := by
  unfold generate_doc
  rw [hd]
  simp [pyTruthy]

/-! ## Node-level helpers and the stamped-then-fresh lemma -/

theorem get_docstring_set (n : Stmt) (d : Line) (hdef : isDefB n = true) :
    get_docstring (set_docstring n d) = some (cleandoc d) := by
  cases n with
  | classdef i nm b => rfl
  | funcdef i nm a b => rfl
  | exprConst c => simp [isDefB, isClassdefB, isFuncdefB] at hdef
  | passStmt => simp [isDefB, isClassdefB, isFuncdefB] at hdef
  | other t => simp [isDefB, isClassdefB, isFuncdefB] at hdef

theorem delFirstBody_set (n : Stmt) (d : Line) :
    delFirstBody (set_docstring n d) = n := by
  cases n <;> rfl

theorem gfh_set (n : Stmt) (d : Line) :
    generate_func_hash (set_docstring n d) true = generate_func_hash n false := by
  simp [generate_func_hash, delFirstBody_set]

/-- After stamping a previously undocumented entity, a second
`generate_doc` run — with any oracle — finds a docstring whose last token
is the current fingerprint (classes are not even checked), takes no
action, and reports not modified with zero oracle calls. -/
theorem generate_doc_stamped_fresh (oracle2 : Nat → Line) (n : Stmt) (s : Line)
    (hdef : isDefB n = true) :
    generate_doc oracle2 (set_docstring n (parse_doc s (generate_func_hash n false))) =
      (set_docstring n (parse_doc s (generate_func_hash n false)), false, 0) := by
  have hgfh : generate_func_hash n false = sha256hex (dump n) := by
    simp [generate_func_hash]
  have hhex : ∀ c ∈ generate_func_hash n false, isHexDigitChar c = true := by
    rw [hgfh]; exact sha256hex_all_hex _
  obtain ⟨hne, hsent, hlast⟩ := cleandoc_parse_doc_facts s _ hhex
  apply generate_doc_fresh oracle2 _ (cleandoc (parse_doc s (generate_func_hash n false)))
  · rw [get_docstring_set _ _ hdef]
  · exact hne
  · exact hsent
  · intro _
    rw [hlast, gfh_set]

/-! ## Freshness of a whole file -/

/-- The spec's Fresh state: documentation present (truthy), carrying the
sentinel, with the stamped digest equal to the current fingerprint. -/
def FreshN (n : Stmt) : Prop :=
  pyTruthy (get_docstring n) = true ∧
  containsSub ((get_docstring n).getD []) template_message = true ∧
  lastToken ((get_docstring n).getD []) = generate_func_hash n true

instance (n : Stmt) : Decidable (FreshN n) := by
  unfold FreshN; exact And.decidable

theorem generate_doc_freshN (oracle : Nat → Line) (n : Stmt) (h : FreshN n) :
    generate_doc oracle n = (n, false, 0) := by
  obtain ⟨h1, h2, h3⟩ := h
  cases hd : get_docstring n with
  | none => rw [hd] at h1; simp [pyTruthy] at h1
  | some d =>
    rw [hd] at h1 h2 h3
    have hne : d ≠ [] := by
      intro he; rw [he] at h1; simp [pyTruthy] at h1
    exact generate_doc_fresh oracle n d hd hne (by simpa using h2)
      (fun _ => by simpa using h3)

/-! ## `findById` / `replaceById` under unique entity identities -/

theorem findByIdS_id_eq (i : Nat) :
    ∀ s n, findByIdS i s = some n → idOf n = i := by
  have hlist : ∀ l : List Stmt,
      (∀ s ∈ l, ∀ n, findByIdS i s = some n → idOf n = i) →
      ∀ n, findByIdL i l = some n → idOf n = i := by
    intro l
    induction l with
    | nil => intro _ n h; simp [findByIdL] at h
    | cons s rest ih =>
      intro hp n h
      simp only [findByIdL] at h
      cases hs : findByIdS i s with
      | some r => rw [hs] at h; cases h; exact hp s (by simp) _ hs
      | none =>
        rw [hs] at h
        exact ih (fun u hu => hp u (by simp [hu])) n h
  intro s
  induction s using Stmt.strongInd with
  | hc j nm body ihb =>
    intro n h
    simp only [findByIdS] at h
    by_cases hj : j = i
    · rw [if_pos hj] at h; cases h; simpa [idOf] using hj
    · rw [if_neg hj] at h; exact hlist body ihb n h
  | hf j nm args body ihb =>
    intro n h
    simp only [findByIdS] at h
    by_cases hj : j = i
    · rw [if_pos hj] at h; cases h; simpa [idOf] using hj
    · rw [if_neg hj] at h; exact hlist body ihb n h
  | he c => intro n h; simp [findByIdS] at h
  | hp => intro n h; simp [findByIdS] at h
  | ho t => intro n h; simp [findByIdS] at h

theorem findByIdL_id_eq (i : Nat) (l : List Stmt) (n : Stmt)
    (h : findByIdL i l = some n) : idOf n = i := by
  induction l with
  | nil => simp [findByIdL] at h
  | cons s rest ih =>
    simp only [findByIdL] at h
    cases hs : findByIdS i s with
    | some r => rw [hs] at h; cases h; exact findByIdS_id_eq i s _ hs
    | none => rw [hs] at h; exact ih h

theorem findByIdS_mem (i : Nat) :
    ∀ s n, findByIdS i s = some n → n ∈ defsOfS s := by
  have hlist : ∀ l : List Stmt,
      (∀ s ∈ l, ∀ n, findByIdS i s = some n → n ∈ defsOfS s) →
      ∀ n, findByIdL i l = some n → n ∈ allDefsL l := by
    intro l
    induction l with
    | nil => intro _ n h; simp [findByIdL] at h
    | cons s rest ih =>
      intro hp n h
      simp only [findByIdL] at h
      simp only [allDefsL, List.mem_append]
      cases hs : findByIdS i s with
      | some r => rw [hs] at h; cases h; exact Or.inl (hp s (by simp) _ hs)
      | none =>
        rw [hs] at h
        exact Or.inr (ih (fun u hu => hp u (by simp [hu])) n h)
  intro s
  induction s using Stmt.strongInd with
  | hc j nm body ihb =>
    intro n h
    simp only [findByIdS] at h
    by_cases hj : j = i
    · rw [if_pos hj] at h; cases h; simp [defsOfS]
    · rw [if_neg hj] at h
      simp only [defsOfS, List.mem_cons]
      exact Or.inr (hlist body ihb n h)
  | hf j nm args body ihb =>
    intro n h
    simp only [findByIdS] at h
    by_cases hj : j = i
    · rw [if_pos hj] at h; cases h; simp [defsOfS]
    · rw [if_neg hj] at h
      simp only [defsOfS, List.mem_cons]
      exact Or.inr (hlist body ihb n h)
  | he c => intro n h; simp [findByIdS] at h
  | hp => intro n h; simp [findByIdS] at h
  | ho t => intro n h; simp [findByIdS] at h

theorem findByIdL_mem (i : Nat) (l : List Stmt) (n : Stmt)
    (h : findByIdL i l = some n) : n ∈ allDefsL l := by
  induction l with
  | nil => simp [findByIdL] at h
  | cons s rest ih =>
    simp only [findByIdL] at h
    simp only [allDefsL, List.mem_append]
    cases hs : findByIdS i s with
    | some r => rw [hs] at h; cases h; exact Or.inl (findByIdS_mem i s _ hs)
    | none => rw [hs] at h; exact Or.inr (ih h)

theorem findByIdS_none (i : Nat) :
    ∀ s, findByIdS i s = none → ∀ d ∈ defsOfS s, idOf d ≠ i := by
  have hlist : ∀ l : List Stmt,
      (∀ s ∈ l, findByIdS i s = none → ∀ d ∈ defsOfS s, idOf d ≠ i) →
      findByIdL i l = none → ∀ d ∈ allDefsL l, idOf d ≠ i := by
    intro l
    induction l with
    | nil => intro _ _ d hd; simp [allDefsL] at hd
    | cons s rest ih =>
      intro hp h d hd
      simp only [findByIdL] at h
      cases hs : findByIdS i s with
      | some r => rw [hs] at h; cases h
      | none =>
        rw [hs] at h
        simp only [allDefsL, List.mem_append] at hd
        rcases hd with hd | hd
        · exact hp s (by simp) hs d hd
        · exact ih (fun u hu => hp u (by simp [hu])) h d hd
  intro s
  induction s using Stmt.strongInd with
  | hc j nm body ihb =>
    intro h d hd
    simp only [findByIdS] at h
    by_cases hj : j = i
    · rw [if_pos hj] at h; cases h
    · rw [if_neg hj] at h
      simp only [defsOfS, List.mem_cons] at hd
      rcases hd with rfl | hd
      · simpa [idOf] using hj
      · exact hlist body ihb h d hd
  | hf j nm args body ihb =>
    intro h d hd
    simp only [findByIdS] at h
    by_cases hj : j = i
    · rw [if_pos hj] at h; cases h
    · rw [if_neg hj] at h
      simp only [defsOfS, List.mem_cons] at hd
      rcases hd with rfl | hd
      · simpa [idOf] using hj
      · exact hlist body ihb h d hd
  | he c => intro _ d hd; simp [defsOfS] at hd
  | hp => intro _ d hd; simp [defsOfS] at hd
  | ho t => intro _ d hd; simp [defsOfS] at hd

theorem findByIdL_none (i : Nat) (l : List Stmt) (h : findByIdL i l = none) :
    ∀ d ∈ allDefsL l, idOf d ≠ i := by
  induction l with
  | nil => intro d hd; simp [allDefsL] at hd
  | cons s rest ih =>
    intro d hd
    simp only [findByIdL] at h
    cases hs : findByIdS i s with
    | some r => rw [hs] at h; cases h
    | none =>
      rw [hs] at h
      simp only [allDefsL, List.mem_append] at hd
      rcases hd with hd | hd
      · exact findByIdS_none i s hs d hd
      · exact ih h d hd

theorem replaceS_absent (i : Nat) (x : Stmt) :
    ∀ s, (∀ d ∈ defsOfS s, idOf d ≠ i) → replaceS i x s = s := by
  have hlist : ∀ l : List Stmt,
      (∀ s ∈ l, (∀ d ∈ defsOfS s, idOf d ≠ i) → replaceS i x s = s) →
      (∀ d ∈ allDefsL l, idOf d ≠ i) → replaceL i x l = l := by
    intro l
    induction l with
    | nil => intro _ _; rfl
    | cons s rest ih =>
      intro hp habs
      simp only [allDefsL] at habs
      simp only [replaceL]
      rw [hp s (by simp) (fun d hd => habs d (List.mem_append.mpr (Or.inl hd))),
          ih (fun u hu => hp u (by simp [hu]))
            (fun d hd => habs d (List.mem_append.mpr (Or.inr hd)))]
  intro s
  induction s using Stmt.strongInd with
  | hc j nm body ihb =>
    intro habs
    have hj : ¬ (j = i) := by
      have := habs (Stmt.classdef j nm body) (by simp [defsOfS])
      simpa [idOf] using this
    simp only [replaceS, if_neg hj]
    rw [hlist body ihb (fun d hd => habs d (by simp [defsOfS, hd]))]
  | hf j nm args body ihb =>
    intro habs
    have hj : ¬ (j = i) := by
      have := habs (Stmt.funcdef j nm args body) (by simp [defsOfS])
      simpa [idOf] using this
    simp only [replaceS, if_neg hj]
    rw [hlist body ihb (fun d hd => habs d (by simp [defsOfS, hd]))]
  | he c => intro _; rfl
  | hp => intro _; rfl
  | ho t => intro _; rfl

theorem replaceL_absent (i : Nat) (x : Stmt) (l : List Stmt)
    (habs : ∀ d ∈ allDefsL l, idOf d ≠ i) : replaceL i x l = l := by
  induction l with
  | nil => rfl
  | cons s rest ih =>
    simp only [allDefsL] at habs
    simp only [replaceL]
    rw [replaceS_absent i x s (fun d hd => habs d (List.mem_append.mpr (Or.inl hd))),
        ih (fun d hd => habs d (List.mem_append.mpr (Or.inr hd)))]

/-- Writing back the very node that was found, under unique identities,
is a no-op on the tree (the source's in-place mutation semantics). -/
theorem replaceS_found (i : Nat) :
    ∀ s n, ((defsOfS s).map idOf).Nodup → findByIdS i s = some n →
      replaceS i n s = s := by
  have hlist : ∀ l : List Stmt,
      (∀ s ∈ l, ∀ n, ((defsOfS s).map idOf).Nodup → findByIdS i s = some n →
        replaceS i n s = s) →
      ∀ n, ((allDefsL l).map idOf).Nodup → findByIdL i l = some n →
        replaceL i n l = l := by
    intro l
    induction l with
    | nil => intro _ n _ h; simp [findByIdL] at h
    | cons s rest ih =>
      intro hp n hnd h
      simp only [allDefsL, List.map_append, List.nodup_append] at hnd
      simp only [findByIdL] at h
      simp only [replaceL]
      cases hs : findByIdS i s with
      | some r =>
        rw [hs] at h; cases h
        rw [hp s (by simp) n hnd.1 hs]
        have hmem : idOf n ∈ (defsOfS s).map idOf :=
          List.mem_map_of_mem idOf (findByIdS_mem i s n hs)
        rw [findByIdS_id_eq i s n hs] at hmem
        rw [replaceL_absent i n rest (fun d hd => by
          intro hid
          exact hnd.2.2 hmem (by rw [← hid]; exact List.mem_map_of_mem idOf hd))]
      | none =>
        rw [hs] at h
        rw [replaceS_absent i n s (findByIdS_none i s hs),
            ih (fun u hu => hp u (by simp [hu])) n hnd.2.1 h]
  intro s
  induction s using Stmt.strongInd with
  | hc j nm body ihb =>
    intro n hnd h
    simp only [findByIdS] at h
    by_cases hj : j = i
    · rw [if_pos hj] at h; cases h
      simp [replaceS, hj]
    · rw [if_neg hj] at h
      simp only [replaceS, if_neg hj]
      simp only [defsOfS, List.map_cons, List.nodup_cons] at hnd
      rw [hlist body ihb n hnd.2 h]
  | hf j nm args body ihb =>
    intro n hnd h
    simp only [findByIdS] at h
    by_cases hj : j = i
    · rw [if_pos hj] at h; cases h
      simp [replaceS, hj]
    · rw [if_neg hj] at h
      simp only [replaceS, if_neg hj]
      simp only [defsOfS, List.map_cons, List.nodup_cons] at hnd
      rw [hlist body ihb n hnd.2 h]
  | he c => intro n _ h; simp [findByIdS] at h
  | hp => intro n _ h; simp [findByIdS] at h
  | ho t => intro n _ h; simp [findByIdS] at h

theorem replaceL_found (i : Nat) (l : List Stmt) (n : Stmt)
    (hnd : ((allDefsL l).map idOf).Nodup) (h : findByIdL i l = some n) :
    replaceL i n l = l := by
  induction l with
  | nil => simp [findByIdL] at h
  | cons s rest ih =>
    simp only [allDefsL, List.map_append, List.nodup_append] at hnd
    simp only [findByIdL] at h
    simp only [replaceL]
    cases hs : findByIdS i s with
    | some r =>
      rw [hs] at h; cases h
      rw [replaceS_found i s n hnd.1 hs]
      have hmem : idOf n ∈ (defsOfS s).map idOf :=
        List.mem_map_of_mem idOf (findByIdS_mem i s n hs)
      rw [findByIdS_id_eq i s n hs] at hmem
      rw [replaceL_absent i n rest (fun d hd => by
        intro hid
        exact hnd.2.2 hmem (by rw [← hid]; exact List.mem_map_of_mem idOf hd))]
    | none =>
      rw [hs] at h
      rw [replaceS_absent i n s (findByIdS_none i s hs), ih hnd.2.1 h]

/-- The whole-file frame property: when every entity of the tree is Fresh,
the per-entity loop leaves the tree untouched, reports no modification,
and never calls the oracle — for any processing order. -/
theorem processEntities_fresh (oracle : Nat → Line) (ids : List Nat) (m : PyModule)
    (hnd : ((allDefsL m).map idOf).Nodup)
    (hfresh : ∀ n ∈ allDefsL m, FreshN n) :
    processEntities oracle ids m = (m, false, 0) := by
  unfold processEntities
  induction ids with
  | nil => rfl
  | cons i rest ih =>
    rw [List.foldl_cons]
    cases hf : findByIdL i m with
    | none => simpa [hf] using ih
    | some node =>
      have hfr := hfresh node (findByIdL_mem i m node hf)
      simp only [hf, generate_doc_freshN oracle node hfr]
      rw [replaceL_found i m node hnd hf]
      simpa using ih

/-! ## `ParentClassFinder`: classes always get parent `None` -/

theorem visitL_class_none (l : List Stmt)
    (hp : ∀ u ∈ l, ∀ cur s p, (s, p) ∈ (visitS cur u).1 → isClassdefB s = true → p = none) :
    ∀ cur s p, (s, p) ∈ (visitL cur l).1 → isClassdefB s = true → p = none := by
  induction l with
  | nil => intro cur s p hmem _; simp [visitL] at hmem
  | cons u rest ih =>
    intro cur s p hmem hcls
    simp only [visitL] at hmem
    rcases hv : visitS cur u with ⟨es, cur2⟩
    rw [hv] at hmem
    rcases hv2 : visitL cur2 rest with ⟨es2, cur3⟩
    rw [hv2] at hmem
    simp only [List.mem_append] at hmem
    rcases hmem with hmem | hmem
    · exact hp u (by simp) cur s p (by rw [hv]; exact hmem) hcls
    · exact ih (fun w hw => hp w (by simp [hw])) cur2 s p (by rw [hv2]; exact hmem) hcls

theorem visitS_class_none :
    ∀ u cur s p, (s, p) ∈ (visitS cur u).1 → isClassdefB s = true → p = none := by
  intro u
  induction u using Stmt.strongInd with
  | hc j nm body ihb =>
    intro cur s p hmem hcls
    simp only [visitS] at hmem
    rcases hv : visitL (some (Stmt.classdef j nm body)) body with ⟨es, curX⟩
    rw [hv] at hmem
    simp only [List.mem_cons] at hmem
    rcases hmem with hmem | hmem
    · exact (Prod.mk.injEq _ _ _ _ ▸ hmem).2
    · exact visitL_class_none body ihb _ s p (by rw [hv]; exact hmem) hcls
  | hf j nm args body ihb =>
    intro cur s p hmem hcls
    simp only [visitS] at hmem
    rcases hv : visitL cur body with ⟨es, curX⟩
    rw [hv] at hmem
    simp only [List.mem_cons] at hmem
    rcases hmem with hmem | hmem
    · obtain ⟨hs, hpp⟩ := Prod.mk.injEq _ _ _ _ ▸ hmem
      rw [hs] at hcls
      simp [isClassdefB] at hcls
    · exact visitL_class_none body ihb cur s p (by rw [hv]; exact hmem) hcls
  | he c => intro cur s p hmem _; simp [visitS] at hmem
  | hp => intro cur s p hmem _; simp [visitS] at hmem
  | ho t => intro cur s p hmem _; simp [visitS] at hmem

/-- In the `parent_classes` table of any module, every `ClassDef` key maps
to `None` — nesting of classes is never recorded. -/
theorem parentsOf_class_none (m : PyModule) (s : Stmt) (p : Option Stmt)
    (hmem : (s, p) ∈ parentsOf m) (hcls : isClassdefB s = true) : p = none :=
  visitL_class_none m (fun u _ => visitS_class_none u) none s p hmem hcls

/-! ## Analysis of `normalize_left_strip` -/

/-- A section-heading underline row: the left-stripped line starts with
`====` or `----`. -/
def isUnd (l : Line) : Bool := (whichMixes (pyLstrip l)).isSome

/-- Length of the whitespace-stripped visible text of a row. -/
def stripLen (l : Line) : Nat := (pyStrip l).length

theorem pyLstrip_head_not_ws (l : Line) (c : Char) (rest : Line)
    (h : pyLstrip l = c :: rest) : pyIsSpace c = false := by
  induction l with
  | nil => simp [pyLstrip] at h
  | cons a tl ih =>
    by_cases ha : pyIsSpace a
    · rw [pyLstrip, List.dropWhile_cons, if_pos ha] at h
      exact ih h
    · rw [pyLstrip, List.dropWhile_cons, if_neg ha] at h
      cases h
      simpa using ha

theorem subFind_eq_wsCount (c0 : Char) (s' l : Line) (hnws : pyIsSpace c0 = false)
    (hpre : (c0 :: s').isPrefixOf (pyLstrip l) = true) :
    subFind (c0 :: s') l = some (wsCount l) := by
  induction l with
  | nil => simp [pyLstrip, List.isPrefixOf] at hpre
  | cons c tl ih =>
    by_cases hc : pyIsSpace c
    · rw [pyLstrip, List.dropWhile_cons, if_pos hc] at hpre
      have hcc : ¬ ((c0 :: s').isPrefixOf (c :: tl) = true) := by
        simp only [List.isPrefixOf, Bool.and_eq_true, beq_iff_eq]
        rintro ⟨rfl, -⟩
        rw [hc] at hnws
        exact absurd hnws (by simp)
      rw [subFind, if_neg hcc, ih hpre]
      have : wsCount (c :: tl) = wsCount tl + 1 := by
        simp [wsCount, List.takeWhile_cons, hc]
      rw [this]
      rfl
    · rw [pyLstrip, List.dropWhile_cons, if_neg hc] at hpre
      rw [subFind, if_pos hpre]
      simp [wsCount, List.takeWhile_cons, hc]

theorem whichMixes_facts (st : Line) (mx : Line) (h : whichMixes st = some mx) :
    mx.isPrefixOf st = true ∧ (mx = "====".toList ∨ mx = "----".toList) := by
  unfold whichMixes at h
  have h1 := @List.find?_some _ (fun mx => List.isPrefixOf mx st) mx mixesList h
  have h2 := List.mem_of_find?_eq_some h
  exact ⟨by simpa using h1, by simpa [mixesList] using h2⟩

theorem mixes_head (mx : Line) (h : mx = "====".toList ∨ mx = "----".toList) :
    ∃ c0 s', mx = c0 :: s' ∧ pyIsSpace c0 = false := by
  rcases h with rfl | rfl
  · exact ⟨'=', _, rfl, by decide⟩
  · exact ⟨'-', _, rfl, by decide⟩

theorem dropWhile_append_cases_g {α : Type} (p : α → Bool) (X Y : List α) :
    List.dropWhile p (X ++ Y) = List.dropWhile p X ++ Y ∨
    (List.dropWhile p X = [] ∧ List.dropWhile p (X ++ Y) = List.dropWhile p Y) := by
  induction X with
  | nil => right; exact ⟨rfl, rfl⟩
  | cons a tl ih =>
    by_cases hp : p a
    · simpa [List.dropWhile_cons, hp] using ih
    · left; simp [List.dropWhile_cons, hp]

theorem pyRstrip_cons_not_ws (c : Char) (tl : Line) (hc : pyIsSpace c = false) :
    ∃ r, pyRstrip (c :: tl) = c :: r := by
  unfold pyRstrip
  rw [List.reverse_cons]
  rcases dropWhile_append_cases_g pyIsSpace tl.reverse [c] with hcase | hcase
  · rw [hcase, List.reverse_append]
    exact ⟨(List.dropWhile pyIsSpace tl.reverse).reverse, by simp⟩
  · rw [hcase.2]
    exact ⟨[], by simp [List.dropWhile_cons, hc]⟩

/-- The stripped text of a line whose left-stripped form is `c0 :: rest`
starts with `c0`. -/
theorem pyStrip_head (l : Line) (c0 : Char) (rest : Line)
    (h : pyLstrip l = c0 :: rest) :
    ∃ r, pyStrip l = c0 :: r := by
  have hnws := pyLstrip_head_not_ws l c0 rest h
  rw [pyStrip, h]
  exact pyRstrip_cons_not_ws c0 rest hnws

theorem pyLstrip_append_allws (a b : Line) (h : ∀ c ∈ a, pyIsSpace c = true) :
    pyLstrip (a ++ b) = pyLstrip b := by
  induction a with
  | nil => rfl
  | cons c tl ih =>
    rw [List.cons_append, pyLstrip, List.dropWhile_cons, if_pos (h c (by simp))]
    exact ih (fun u hu => h u (by simp [hu]))

theorem pyLstrip_replicate (n : Nat) (ch : Char) (hch : pyIsSpace ch = false) :
    pyLstrip (List.replicate n ch) = List.replicate n ch := by
  cases n with
  | zero => rfl
  | succ k =>
    rw [List.replicate_succ]
    exact pyLstrip_cons_no_ws ch _ hch

theorem pyRstrip_replicate (n : Nat) (ch : Char) (hch : pyIsSpace ch = false) :
    pyRstrip (List.replicate n ch) = List.replicate n ch := by
  unfold pyRstrip
  rw [List.reverse_replicate,
      pyDropWhile_no pyIsSpace _ (fun c hcmem => by
        rw [(List.eq_of_mem_replicate hcmem)]
        exact hch),
      List.reverse_replicate]

/-- The strip of an extended underline row (`line[:index] + char * num`,
with `index` the whitespace-prefix length) is exactly `char * num`. -/
theorem pyStrip_fixed_row (l : Line) (n : Nat) (ch : Char)
    (hch : pyIsSpace ch = false) :
    pyStrip (l.take (wsCount l) ++ List.replicate n ch) = List.replicate n ch := by
  rw [pyStrip, take_wsCount,
      pyLstrip_append_allws _ _ (fun c hc => List.mem_takeWhile_imp hc),
      pyLstrip_replicate n ch hch, pyRstrip_replicate n ch hch]

theorem pyStrip_drop (l : Line) (j : Nat) (h : j ≤ wsCount l) :
    pyStrip (l.drop j) = pyStrip l := by
  rw [pyStrip, pyStrip, pyLstrip_drop l j h]

theorem isUnd_drop (l : Line) (j : Nat) (h : j ≤ wsCount l) :
    isUnd (l.drop j) = isUnd l := by
  unfold isUnd
  rw [pyLstrip_drop l j h]

theorem isUnd_function_insert (raw : Line) :
    isUnd ("Function ".toList ++ raw) = false := by
  unfold isUnd whichMixes
  have hl : pyLstrip ("Function ".toList ++ raw) =
      'F' :: ("unction ".toList ++ raw) := by
    exact pyLstrip_cons_no_ws 'F' _ (by decide)
  rw [hl]
  simp [mixesList, List.find?, List.isPrefixOf,
    show (('=' == 'F') = false) from rfl, show (('-' == 'F') = false) from rfl]

theorem getD_set_ne (x d : Line) :
    ∀ (l : List Line) (i j : Nat), i ≠ j → (l.set i x).getD j d = l.getD j d := by
  intro l
  induction l with
  | nil => intro i j _; simp [List.set]
  | cons a tl ih =>
    intro i j h
    cases i with
    | zero =>
      cases j with
      | zero => exact absurd rfl h
      | succ j' => simp [List.set, List.getD_cons_succ]
    | succ i' =>
      cases j with
      | zero => simp [List.set, List.getD_cons_zero]
      | succ j' =>
        simp only [List.set, List.getD_cons_succ]
        exact ih i' j' (by omega)

theorem getD_set_self (x d : Line) :
    ∀ (l : List Line) (i : Nat), i < l.length → (l.set i x).getD i d = x := by
  intro l
  induction l with
  | nil => intro i h; simp at h
  | cons a tl ih =>
    intro i h
    cases i with
    | zero => simp [List.set]
    | succ i' =>
      simp only [List.set, List.getD_cons_succ]
      exact ih i' (by simpa using h)

theorem lt_length_of_getD_ne (l : List Line) (i : Nat) (h : l.getD i [] ≠ []) :
    i < l.length := by
  by_contra hge
  push_neg at hge
  rw [List.getD_eq_default] at h
  · exact h rfl
  · exact hge

/-- Invariant bookkeeping for one `normalize_left_strip` first-loop step:
rows other than `i-1` and `i` are untouched, row `i-1` is unchanged or no
longer an underline, and row `i` satisfies the length constraint. -/
theorem inv_update (orig lines : List Line) (i : Nat)
    (hlen : lines.length = orig.length)
    (hframe : ∀ j, i ≤ j → lines.getD j [] = orig.getD j [])
    (hund : ∀ j, 1 ≤ j → j < i → isUnd (lines.getD j []) = true →
      stripLen (lines.getD (j - 1) []) ≤ stripLen (lines.getD j []))
    (lines' : List Line) (hne0 : i ≠ 0)
    (hlen' : lines'.length = lines.length)
    (hroweq : ∀ j, j ≠ i - 1 → j ≠ i → lines'.getD j [] = lines.getD j [])
    (hrowprev : lines'.getD (i - 1) [] = lines.getD (i - 1) [] ∨
      isUnd (lines'.getD (i - 1) []) = false)
    (hrowi : isUnd (lines'.getD i []) = true →
      stripLen (lines'.getD (i - 1) []) ≤ stripLen (lines'.getD i [])) :
    lines'.length = orig.length ∧
    (∀ j, i + 1 ≤ j → lines'.getD j [] = orig.getD j []) ∧
    (∀ j, 1 ≤ j → j < i + 1 → isUnd (lines'.getD j []) = true →
      stripLen (lines'.getD (j - 1) []) ≤ stripLen (lines'.getD j [])) := by
  refine ⟨hlen' ▸ hlen, ?_, ?_⟩
  · intro j hj
    rw [hroweq j (by omega) (by omega)]
    exact hframe j (by omega)
  · intro j hj1 hj2 hu
    by_cases hji : j = i
    · subst hji
      exact hrowi hu
    · have hjlt : j < i := by omega
      by_cases hjprev : j = i - 1
      · subst hjprev
        rcases hrowprev with heq | hnu
        · rw [heq] at hu ⊢
          rw [hroweq (i - 1 - 1) (by omega) (by omega)]
          exact hund (i - 1) hj1 hjlt hu
        · rw [hnu] at hu; cases hu
      · rw [hroweq j hjprev hji] at hu ⊢
        rw [hroweq (j - 1) (by omega) (by omega)]
        exact hund j hj1 hjlt hu

theorem isPrefixOf_cons_ex (c0 : Char) (s' l : Line)
    (h : (c0 :: s').isPrefixOf l = true) : ∃ r, l = c0 :: r := by
  cases l with
  | nil => simp [List.isPrefixOf] at h
  | cons b bs =>
    simp only [List.isPrefixOf, Bool.and_eq_true, beq_iff_eq] at h
    exact ⟨bs, by rw [← h.1]⟩

/-- The tail of a first-loop step when no "Function " insertion happened:
either the underline row `i` is rewritten to `line[:index] + ch * num`, or
nothing changes.  In both outcomes the invariant advances. -/
theorem normStep_noinsert_cont (orig lines : List Line) (i : Nat) (c0 : Char) (rtail : Line)
    (hlen : lines.length = orig.length)
    (hframe : ∀ j, i ≤ j → lines.getD j [] = orig.getD j [])
    (hund : ∀ j, 1 ≤ j → j < i → isUnd (lines.getD j []) = true →
      stripLen (lines.getD (j - 1) []) ≤ stripLen (lines.getD j []))
    (hne0 : i ≠ 0) (hilt : i < lines.length)
    (hstrip : pyStrip (lines.getD i []) = c0 :: rtail)
    (hc0ws : pyIsSpace c0 = false)
    (lines' : List Line) (anyLS anyLS2 : Option Nat)
    (hstep : (if (pyStrip (lines.getD (i - 1) [])).length >
        (pyStrip (lines.getD i [])).length
      then some (lines.set i ((lines.getD i []).take (wsCount (lines.getD i [])) ++
        List.replicate (pyStrip (lines.getD (i - 1) [])).length
          ((pyStrip (lines.getD i [])).getD 0 ' ')), anyLS)
      else some (lines, anyLS)) = some (lines', anyLS2)) :
    lines'.length = orig.length ∧
    (∀ j, i + 1 ≤ j → lines'.getD j [] = orig.getD j []) ∧
    (∀ j, 1 ≤ j → j < i + 1 → isUnd (lines'.getD j []) = true →
      stripLen (lines'.getD (j - 1) []) ≤ stripLen (lines'.getD j [])) := by
  have hch : (pyStrip (lines.getD i [])).getD 0 ' ' = c0 := by rw [hstrip]; rfl
  by_cases hext : (pyStrip (lines.getD (i - 1) [])).length >
      (pyStrip (lines.getD i [])).length
  · rw [if_pos hext] at hstep
    simp only [Option.some.injEq, Prod.mk.injEq] at hstep
    obtain ⟨h1, -⟩ := hstep
    subst h1
    apply inv_update orig lines i hlen hframe hund _ hne0
    · simp [List.length_set]
    · intro j hj1 hj2
      exact getD_set_ne _ _ lines i j (fun he => hj2 he.symm)
    · left
      exact getD_set_ne _ _ lines i (i - 1) (by omega)
    · intro _
      rw [getD_set_self _ _ lines i hilt, getD_set_ne _ _ lines i (i - 1) (by omega), hch]
      unfold stripLen
      rw [pyStrip_fixed_row _ _ c0 hc0ws, List.length_replicate]
  · rw [if_neg hext] at hstep
    simp only [Option.some.injEq, Prod.mk.injEq] at hstep
    obtain ⟨h1, -⟩ := hstep
    subst h1
    apply inv_update orig lines i hlen hframe hund _ hne0 rfl
      (fun j _ _ => rfl) (Or.inl rfl)
    intro _
    unfold stripLen
    omega

/-- The tail of a first-loop step after the "Function " insertion rewrote
row `i-1`: row `i-1` is no longer an underline row, and row `i` is either
extended to the new heading's stripped length or already long enough. -/
theorem normStep_insert_cont (orig lines : List Line) (i : Nat) (c0 : Char) (rtail : Line)
    (hlen : lines.length = orig.length)
    (hframe : ∀ j, i ≤ j → lines.getD j [] = orig.getD j [])
    (hund : ∀ j, 1 ≤ j → j < i → isUnd (lines.getD j []) = true →
      stripLen (lines.getD (j - 1) []) ≤ stripLen (lines.getD j []))
    (hne0 : i ≠ 0) (hilt : i < lines.length) (hprevlt : i - 1 < lines.length)
    (hstrip : pyStrip (lines.getD i []) = c0 :: rtail)
    (hc0ws : pyIsSpace c0 = false)
    (lines' : List Line) (anyLS anyLS2 : Option Nat)
    (hstep : (if (pyStrip ("Function ".toList ++ lines.getD (i - 1) [])).length >
        (pyStrip (lines.getD i [])).length
      then some ((lines.set (i - 1)
          ("Function ".toList ++ lines.getD (i - 1) [])).set i
            ((lines.getD i []).take (wsCount (lines.getD i [])) ++
              List.replicate
                (pyStrip ("Function ".toList ++ lines.getD (i - 1) [])).length
                ((pyStrip (lines.getD i [])).getD 0 ' ')), anyLS)
      else some (lines.set (i - 1)
          ("Function ".toList ++ lines.getD (i - 1) []), anyLS)) = some (lines', anyLS2)) :
    lines'.length = orig.length ∧
    (∀ j, i + 1 ≤ j → lines'.getD j [] = orig.getD j []) ∧
    (∀ j, 1 ≤ j → j < i + 1 → isUnd (lines'.getD j []) = true →
      stripLen (lines'.getD (j - 1) []) ≤ stripLen (lines'.getD j [])) := by
  have hch : (pyStrip (lines.getD i [])).getD 0 ' ' = c0 := by rw [hstrip]; rfl
  have hne' : i ≠ i - 1 := by omega
  by_cases hext : (pyStrip ("Function ".toList ++ lines.getD (i - 1) [])).length >
      (pyStrip (lines.getD i [])).length
  · rw [if_pos hext] at hstep
    simp only [Option.some.injEq, Prod.mk.injEq] at hstep
    obtain ⟨h1, -⟩ := hstep
    subst h1
    apply inv_update orig lines i hlen hframe hund _ hne0
    · simp [List.length_set]
    · intro j hj1 hj2
      rw [getD_set_ne _ _ _ i j (fun he => hj2 he.symm),
          getD_set_ne _ _ lines (i - 1) j (fun he => hj1 he.symm)]
    · right
      rw [getD_set_ne _ _ _ i (i - 1) hne',
          getD_set_self _ _ lines (i - 1) hprevlt]
      exact isUnd_function_insert _
    · intro _
      rw [getD_set_self _ _ _ i (by simpa [List.length_set] using hilt),
          getD_set_ne _ _ _ i (i - 1) hne',
          getD_set_self _ _ lines (i - 1) hprevlt, hch]
      unfold stripLen
      rw [pyStrip_fixed_row _ _ c0 hc0ws, List.length_replicate]
  · rw [if_neg hext] at hstep
    simp only [Option.some.injEq, Prod.mk.injEq] at hstep
    obtain ⟨h1, -⟩ := hstep
    subst h1
    apply inv_update orig lines i hlen hframe hund _ hne0
    · simp [List.length_set]
    · intro j hj1 _
      exact getD_set_ne _ _ lines (i - 1) j (fun he => hj1 he.symm)
    · right
      rw [getD_set_self _ _ lines (i - 1) hprevlt]
      exact isUnd_function_insert _
    · intro _
      rw [getD_set_ne _ _ lines (i - 1) i (fun he => hne' he.symm),
          getD_set_self _ _ lines (i - 1) hprevlt]
      unfold stripLen
      omega

/-- One step of the first loop preserves the rows-processed invariant:
up to row `i`, no underline row is strictly shorter than the stripped
text of the line above it, and rows from `i+1` on are untouched. -/
theorem normStep_inv (t : PyType) (orig lines : List Line) (ls : Option Nat)
    (i : Nat) (lines' : List Line) (ls' : Option Nat)
    (hlen : lines.length = orig.length)
    (hframe : ∀ j, i ≤ j → lines.getD j [] = orig.getD j [])
    (hund : ∀ j, 1 ≤ j → j < i → isUnd (lines.getD j []) = true →
      stripLen (lines.getD (j - 1) []) ≤ stripLen (lines.getD j []))
    (hstep : normStep t (lines, ls) i = some (lines', ls')) :
    lines'.length = orig.length ∧
    (∀ j, i + 1 ≤ j → lines'.getD j [] = orig.getD j []) ∧
    (∀ j, 1 ≤ j → j < i + 1 → isUnd (lines'.getD j []) = true →
      stripLen (lines'.getD (j - 1) []) ≤ stripLen (lines'.getD j [])) := by
  have hiu : isUnd (lines.getD i []) = (whichMixes (pyLstrip (lines.getD i []))).isSome := rfl
  simp only [normStep] at hstep
  cases hwm : whichMixes (pyLstrip (lines.getD i [])) with
  | none =>
    rw [hwm] at hstep
    simp only [Option.some.injEq, Prod.mk.injEq] at hstep
    obtain ⟨h1, -⟩ := hstep
    subst h1
    refine ⟨hlen, fun j hj => hframe j (by omega), ?_⟩
    intro j hj1 hj2 hu
    by_cases hji : j < i
    · exact hund j hj1 hji hu
    · have hji' : j = i := by omega
      subst hji'
      rw [hiu, hwm] at hu
      simp at hu
  | some mx =>
    rw [hwm] at hstep
    dsimp only [] at hstep
    obtain ⟨hpre0, hmx2⟩ := whichMixes_facts _ mx hwm
    obtain ⟨c0, s', hmxeq, hc0⟩ := mixes_head mx hmx2
    subst hmxeq
    obtain ⟨lrest, hlst⟩ := isPrefixOf_cons_ex c0 s' _ hpre0
    have hlne : lines.getD i [] ≠ [] := by
      intro he
      rw [he] at hlst
      simp [pyLstrip] at hlst
    have hilt : i < lines.length := lt_length_of_getD_ne _ _ hlne
    have hfind : subFind (c0 :: s') (lines.getD i []) =
        some (wsCount (lines.getD i [])) :=
      subFind_eq_wsCount c0 s' _ hc0 hpre0
    rw [hfind] at hstep
    simp only [Option.getD_some] at hstep
    obtain ⟨rtail, hstrip⟩ := pyStrip_head (lines.getD i []) c0 lrest hlst
    have hc0ws := pyLstrip_head_not_ws _ c0 lrest hlst
    by_cases hi0 : i = 0
    · subst hi0
      rw [if_pos rfl] at hstep
      simp only [Option.some.injEq, Prod.mk.injEq] at hstep
      obtain ⟨h1, -⟩ := hstep
      subst h1
      refine ⟨hlen, fun j hj => hframe j (by omega), ?_⟩
      intro j hj1 hj2 _
      omega
    · rw [if_neg hi0] at hstep
      by_cases hcond : t = PyType.functions ∧
          containsSub (lines.getD i []) ("====".toList) = true
      · rw [if_pos hcond] at hstep
        by_cases hsp : ¬ ((pyStrip (lines.getD (i - 1) [])).contains ' ' = true)
        · rw [if_pos hsp] at hstep
          cases hprev : pyStrip (lines.getD (i - 1) []) with
          | nil =>
            rw [hprev] at hstep
            simp at hstep
          | cons c ptl =>
            rw [hprev] at hstep
            dsimp only [] at hstep
            have hfc : subFind [c] (c :: ptl) = some 0 := by
              simp [subFind, List.isPrefixOf]
            rw [hfc] at hstep
            simp only [Option.getD_some, List.take_zero, List.drop_zero,
              List.nil_append] at hstep
            have hprevlt : i - 1 < lines.length := by
              apply lt_length_of_getD_ne
              intro he
              rw [he] at hprev
              simp [pyStrip, pyLstrip, pyRstrip] at hprev
            exact normStep_insert_cont orig lines i c0 rtail hlen hframe hund hi0
              hilt hprevlt hstrip hc0ws lines' _ ls' hstep
        · rw [if_neg hsp] at hstep
          exact normStep_noinsert_cont orig lines i c0 rtail hlen hframe hund hi0
            hilt hstrip hc0ws lines' _ ls' hstep
      · rw [if_neg hcond] at hstep
        exact normStep_noinsert_cont orig lines i c0 rtail hlen hframe hund hi0
          hilt hstrip hc0ws lines' _ ls' hstep

/-- Folding the first loop over consecutive indices preserves the
invariant. -/
theorem normPass1Aux_inv (t : PyType) (orig : List Line) :
    ∀ (k i : Nat) (st st' : List Line × Option Nat),
      (List.range' i k).foldlM (normStep t) st = some st' →
      st.1.length = orig.length →
      (∀ j, i ≤ j → st.1.getD j [] = orig.getD j []) →
      (∀ j, 1 ≤ j → j < i → isUnd (st.1.getD j []) = true →
        stripLen (st.1.getD (j - 1) []) ≤ stripLen (st.1.getD j [])) →
      st'.1.length = orig.length ∧
      (∀ j, 1 ≤ j → j < i + k → isUnd (st'.1.getD j []) = true →
        stripLen (st'.1.getD (j - 1) []) ≤ stripLen (st'.1.getD j [])) := by
  intro k
  induction k with
  | zero =>
    intro i st st' hfold h1 h2 h3
    simp only [List.range', List.foldlM_nil, Option.pure_def, Option.some.injEq] at hfold
    subst hfold
    exact ⟨h1, fun j hj1 hj2 => h3 j hj1 (by omega)⟩
  | succ k ih =>
    intro i st st' hfold h1 h2 h3
    rw [show List.range' i (k + 1) = i :: List.range' (i + 1) k from rfl,
        List.foldlM_cons] at hfold
    cases hs : normStep t st i with
    | none => rw [hs] at hfold; simp at hfold
    | some st2 =>
      rw [hs] at hfold
      have hs' : normStep t (st.1, st.2) i = some (st2.1, st2.2) := hs
      have hinv := normStep_inv t orig st.1 st.2 i st2.1 st2.2 h1 h2 h3 hs'
      have := ih (i + 1) st2 st' hfold hinv.1 hinv.2.1 hinv.2.2
      exact ⟨this.1, fun j hj1 hj2 hu => this.2 j hj1 (by omega) hu⟩

/-- The first loop's final state: no underline row is strictly shorter
than the stripped text of the row above it. -/
theorem normPass1_inv (t : PyType) (lines0 lines2 : List Line) (ls : Option Nat)
    (h : normPass1 t lines0 = some (lines2, ls)) :
    lines2.length = lines0.length ∧
    (∀ j, 1 ≤ j → isUnd (lines2.getD j []) = true →
      stripLen (lines2.getD (j - 1) []) ≤ stripLen (lines2.getD j [])) := by
  unfold normPass1 at h
  rw [List.range_eq_range'] at h
  have hmain := normPass1Aux_inv t lines0 lines0.length 0 (lines0, none) (lines2, ls)
    h rfl (fun _ _ => rfl) (fun j hj1 hj2 _ => absurd hj2 (by omega))
  refine ⟨hmain.1, fun j hj1 hu => ?_⟩
  by_cases hjr : j < 0 + lines0.length
  · exact hmain.2 j hj1 hjr hu
  · exfalso
    have hlen2 : lines2.length = lines0.length := hmain.1
    have hdef : lines2.getD j [] = [] := by
      apply List.getD_eq_default
      omega
    rw [hdef] at hu
    exact absurd hu (by decide)

theorem map_getD_nilfix (f : Line → Line) (hf : f [] = []) :
    ∀ (l : List Line) (j : Nat), (l.map f).getD j [] = f (l.getD j []) := by
  intro l
  induction l with
  | nil => intro j; simp [hf]
  | cons a tl ih =>
    intro j
    cases j with
    | zero => simp
    | succ j' => simpa using ih j'

theorem stripRow_nil (k : Nat) : stripRow k [] = [] := rfl

/-- The second loop only removes leading whitespace: the stripped text and
the underline-row property of every line are unchanged. -/
theorem stripRow_preserves (k : Nat) (l : Line) :
    pyStrip (stripRow k l) = pyStrip l ∧ isUnd (stripRow k l) = isUnd l := by
  unfold stripRow
  cases hls : pyLstrip l with
  | nil => exact ⟨rfl, rfl⟩
  | cons c r =>
    have hcws := pyLstrip_head_not_ws l c r hls
    have hpre : ([c] : Line).isPrefixOf (pyLstrip l) = true := by
      rw [hls]; simp [List.isPrefixOf]
    have hfind : subFind [c] l = some (wsCount l) :=
      subFind_eq_wsCount c [] l hcws hpre
    dsimp only []
    rw [hfind]
    simp only [Option.getD_some]
    exact ⟨pyStrip_drop l _ (Nat.min_le_right _ _),
      isUnd_drop l _ (Nat.min_le_right _ _)⟩

theorem stripPass_getD (k : Nat) (lines : List Line) (j : Nat) :
    (stripPass k lines).getD j [] = stripRow k (lines.getD j []) :=
  map_getD_nilfix (stripRow k) (stripRow_nil k) lines j

theorem stripPass_length (k : Nat) (lines : List Line) :
    (stripPass k lines).length = lines.length := by
  simp [stripPass]

/-- On the non-discard path (`line_strip` present and nonzero) the
function returns the joined, margin-stripped processed lines. -/
theorem normalize_eq_of_pass1 (t : PyType) (txt : Line) (lines2 : List Line) (k : Nat)
    (hp : normPass1 t (pySplitOnChar '\n' txt) = some (lines2, some k)) (hk : k ≠ 0) :
    normalize_left_strip t txt = some (pyJoinChar '\n' (stripPass k lines2)) := by
  unfold normalize_left_strip
  dsimp only []
  rw [hp]
  cases k with
  | zero => exact absurd rfl hk
  | succ k' => rfl

/-- The statement body of a def node. -/
def bodyOf : Stmt → List Stmt
  | .classdef _ _ body => body
  | .funcdef _ _ _ body => body
  | _ => []

theorem docOfBody_set (n : Stmt) (d : Line) (hdef : isDefB n = true) :
    docOfBody (bodyOf (set_docstring n d)) = some d := by
  cases n with
  | classdef i nm b => rfl
  | funcdef i nm a b => rfl
  | exprConst c => simp [isDefB, isClassdefB, isFuncdefB] at hdef
  | passStmt => simp [isDefB, isClassdefB, isFuncdefB] at hdef
  | other t => simp [isDefB, isClassdefB, isFuncdefB] at hdef

theorem not_func_of_class (s : Stmt) (h : isClassdefB s = true) :
    isFuncdefB s = false := by
  cases s <;> simp [isClassdefB, isFuncdefB] at h ⊢

/-- A file every entity of which is Fresh is not rewritten: the returned
content is the original, the written flag is false, and the oracle was
never invoked. -/
theorem extractFile_fresh (oracle : Nat → Line) (m : PyModule)
    (hnd : ((allDefsL m).map idOf).Nodup)
    (hfresh : ∀ n ∈ allDefsL m, FreshN n) :
    extractFile oracle (PyContent.code m) = some (PyContent.code m, false, 0) := by
  unfold extractFile
  rw [show pyParse (PyContent.code m) = some m from rfl]
  dsimp only []
  rw [processEntities_fresh oracle ((walkDefs m).map idOf) m hnd hfresh]
  rfl

/-- A parse failure at the head of the remaining file list aborts the
whole run, leaving the failing file and every later file untouched. -/
theorem runExtract_abort (oracle : Nat → Line) (p : Nat) (c : PyContent)
    (post : List (Nat × PyContent)) (hc : pyParse c = none) :
    runExtract oracle ((p, c) :: post) = ((p, c) :: post, true) := by
  unfold runExtract
  rw [show extractFile oracle c = none from by unfold extractFile; rw [hc]]

/-! ## Concrete objects used in witnesses and counterexamples -/

def wOracle : Nat → Line := fun _ => "Generated prose.".toList

def wHuman : Stmt :=
  .funcdef 9 ("h".toList) [] [.exprConst (.str ("my docs".toList)), .other 5]

def wEmptyDoc : Stmt := .funcdef 8 ("g".toList) [] [.exprConst (.str []), .other 4]

def wStaleDoc : Line := "This is an autogenerated docstring\nhash deadbeef".toList

def wStaleFunc : Stmt :=
  .funcdef 7 ("f".toList) [] [.exprConst (.str wStaleDoc), .other 3]

def wStaleClass : Stmt :=
  .classdef 6 ("C".toList) [.exprConst (.str wStaleDoc), .other 2]

def wNoDoc : Stmt := .funcdef 11 ("k".toList) ["a".toList] [.other 6]

def wBase : Stmt := .funcdef 0 ("f".toList) [] [.other 1]

def wFreshNode : Stmt :=
  set_docstring wBase (parse_doc ("P".toList) (generate_func_hash wBase false))

def wFreshM : PyModule := [wFreshNode]

def wM2node : Stmt := .funcdef 2 ("g".toList) [] [.other 3]

def wM2 : PyModule := [wM2node]

def c6txt : Line := "  ABCD\n  ----\n      EFGH\n      ----".toList

def c6y : Line := "ABCD\n----\n    EFGH\n    ----".toList

def c6z : Line := "ABCD\n----\nEFGH\n----".toList

def c7in : Line := " Hi\n ------".toList

def c7out : Line := "Hi\n------".toList

def w7txt : Line := "  ABCD\n  ----".toList

def T9A : Stmt := .classdef 0 ("A".toList)
  [.funcdef 2 ("m".toList) [] [.funcdef 3 ("g".toList) [] [.other 1]],
   .classdef 1 ("B".toList) [.other 0],
   .funcdef 4 ("h".toList) [] [.other 2]]

def T9 : PyModule := [T9A]

def T9B : Stmt := .classdef 1 ("B".toList) [.other 0]

def T9g : Stmt := .funcdef 3 ("g".toList) [] [.other 1]

def T9h : Stmt := .funcdef 4 ("h".toList) [] [.other 2]

/-! ## The claims -/

/-- Claim C1 (amended): only Function-kind entities are regenerated on a
stamped-digest mismatch.  For a Function entity whose documentation
carries the sentinel and whose stamped digest (last token) differs from
the fresh fingerprint, `generate_doc` regenerates, re-stamps with the new
fingerprint, REPLACES the first body statement and reports modified; a
Class-kind entity with sentinel documentation is never regenerated,
regardless of its stamped digest. -/
theorem claim_C1_amended (oracle : Nat → Line) (n : Stmt) (d : Line)
    (hd : get_docstring n = some d) (hne : d ≠ [])
    (hsent : containsSub d template_message = true)
    (hf : isFuncdefB n = true)
    (hmis : lastToken d ≠ generate_func_hash n true)
    (cn : Stmt) (cd : Line) (hcd : get_docstring cn = some cd) (hcne : cd ≠ [])
    (hcsent : containsSub cd template_message = true)
    (hccls : isClassdefB cn = true) :
    generate_doc oracle n =
      (update_docstring n (parse_doc (oracle (idOf n)) (generate_func_hash n true)),
        true, 1) ∧
    generate_doc oracle cn = (cn, false, 0) :=
  ⟨generate_doc_stale_func oracle n d hd hne hsent hf hmis,
    generate_doc_fresh oracle cn cd hcd hcne hcsent
      (fun hcf => absurd hcf (by rw [not_func_of_class cn hccls]; simp))⟩

/-- Claim C1 witness: the amended claim at a concrete stale function and
a concrete stale class. -/
theorem claim_C1_witness :
    generate_doc wOracle wStaleFunc =
      (update_docstring wStaleFunc
        (parse_doc (wOracle (idOf wStaleFunc)) (generate_func_hash wStaleFunc true)),
        true, 1) ∧
    generate_doc wOracle wStaleClass = (wStaleClass, false, 0) :=
  claim_C1_amended wOracle wStaleFunc wStaleDoc (by decide) (by decide) (by decide)
    (by decide) (by decide) wStaleClass wStaleDoc (by decide) (by decide)
    (by decide) (by decide)

/-- Claim C1 counterexample: a Class entity with sentinel documentation
and a mismatching stamped digest is NOT regenerated and is reported
unmodified, contradicting the claim that both kinds are regenerated. -/
theorem claim_C1_counterexample :
    containsSub ((get_docstring wStaleClass).getD []) template_message = true ∧
    lastToken ((get_docstring wStaleClass).getD []) ≠
      generate_func_hash wStaleClass true ∧
    generate_doc wOracle wStaleClass = (wStaleClass, false, 0) := by
  refine ⟨by decide, by decide, ?_⟩
  decide

/-- Claim C2: the fingerprint ignores the documentation.  For both entity
kinds, the digest of an entity carrying a docstring (computed, as the
controller does, on a copy with the first body statement deleted) equals
the digest of the same entity without any docstring, and is independent
of the docstring text. -/
theorem claim_C2 (i : Nat) (nm : Line) (args : List Line) (rest : List Stmt)
    (d d' : Line) (ci : Nat) (cnm : Line) (crest : List Stmt) (cd cd' : Line) :
    (generate_func_hash (.funcdef i nm args (.exprConst (.str d) :: rest)) true =
      generate_func_hash (.funcdef i nm args rest) false) ∧
    (generate_func_hash (.funcdef i nm args (.exprConst (.str d) :: rest)) true =
      generate_func_hash (.funcdef i nm args (.exprConst (.str d') :: rest)) true) ∧
    (generate_func_hash (.classdef ci cnm (.exprConst (.str cd) :: crest)) true =
      generate_func_hash (.classdef ci cnm crest) false) ∧
    (generate_func_hash (.classdef ci cnm (.exprConst (.str cd) :: crest)) true =
      generate_func_hash (.classdef ci cnm (.exprConst (.str cd') :: crest)) true) := by
  refine ⟨?_, ?_, ?_, ?_⟩ <;> simp [generate_func_hash, delFirstBody]

/-- Claim C3 (amended): an entity whose documentation is present,
non-empty after cleaning and without the sentinel is untouched and
reported unmodified; but an entity whose existing documentation cleans to
the empty string is treated as missing — a stamped block is generated and
inserted in front of it and the entity IS reported modified. -/
theorem claim_C3_amended (oracle : Nat → Line) (n : Stmt) (d : Line)
    (hd : get_docstring n = some d) (hne : d ≠ [])
    (hnosent : containsSub d template_message = false)
    (n2 : Stmt) (hd2 : get_docstring n2 = some []) :
    generate_doc oracle n = (n, false, 0) ∧
    generate_doc oracle n2 =
      (set_docstring n2 (parse_doc (oracle (idOf n2)) (generate_func_hash n2 true)),
        true, 1) :=
  ⟨generate_doc_human oracle n d hd hne hnosent, generate_doc_empty_doc oracle n2 hd2⟩

/-- Claim C3 witness: the amended claim at a concrete human-documented
function and a concrete empty-docstring function. -/
theorem claim_C3_witness :
    generate_doc wOracle wHuman = (wHuman, false, 0) ∧
    generate_doc wOracle wEmptyDoc =
      (set_docstring wEmptyDoc
        (parse_doc (wOracle (idOf wEmptyDoc)) (generate_func_hash wEmptyDoc true)),
        true, 1) :=
  claim_C3_amended wOracle wHuman ("my docs".toList) (by decide) (by decide)
    (by decide) wEmptyDoc (by decide)

/-- Claim C3 counterexample: an entity whose existing documentation is
the empty string — present and without the sentinel — is nevertheless
acted upon: documentation is generated (one oracle call), inserted, and
the entity is reported modified, contradicting "no action regardless of
the fingerprint". -/
theorem claim_C3_counterexample :
    get_docstring wEmptyDoc = some [] ∧
    containsSub [] template_message = false ∧
    (generate_doc wOracle wEmptyDoc).2.1 = true ∧
    (generate_doc wOracle wEmptyDoc).2.2 = 1 ∧
    (generate_doc wOracle wEmptyDoc).1 ≠ wEmptyDoc := by
  refine ⟨by decide, by decide, ?_, ?_, ?_⟩ <;> decide

/-- Claim C4: an entity (either kind) with no existing documentation is,
after one controller pass, stamped: its first body statement becomes the
string literal `parse_doc(prose, digest)`, whose lines include the
sentinel marker line and the line `hash <digest>`, where the digest is
the 64-character hex fingerprint computed at that time; the entity is
reported modified. -/
theorem claim_C4 (oracle : Nat → Line) (n : Stmt) (hdef : isDefB n = true)
    (hdoc : get_docstring n = none) :
    generate_doc oracle n =
      (set_docstring n (parse_doc (oracle (idOf n)) (generate_func_hash n false)),
        true, 1) ∧
    docOfBody (bodyOf ((generate_doc oracle n).1)) =
      some (parse_doc (oracle (idOf n)) (generate_func_hash n false)) ∧
    template_message ∈
      pySplitOnChar '\n' (parse_doc (oracle (idOf n)) (generate_func_hash n false)) ∧
    ("hash ".toList ++ generate_func_hash n false) ∈
      pySplitOnChar '\n' (parse_doc (oracle (idOf n)) (generate_func_hash n false)) ∧
    (generate_func_hash n false).length = 64 ∧
    (generate_func_hash n false).all isHexDigitChar = true := by
  have hgfh : generate_func_hash n false = sha256hex (dump n) := by
    simp [generate_func_hash]
  have hhex : ∀ c ∈ generate_func_hash n false, isHexDigitChar c = true := by
    rw [hgfh]; exact sha256hex_all_hex _
  have hnl : '\n' ∉ generate_func_hash n false :=
    fun hm => absurd (hhex _ hm) (by decide)
  have hmain := generate_doc_missing oracle n hdoc
  obtain ⟨hm1, hm2⟩ := parse_doc_lines (oracle (idOf n)) _ hnl
  refine ⟨hmain, ?_, hm1, hm2, by rw [hgfh]; exact sha256hex_length _, ?_⟩
  · rw [hmain]
    exact docOfBody_set n _ hdef
  · exact List.all_eq_true.mpr (fun c hc => hhex c hc)

/-- Claim C4 witness: the claim at a concrete undocumented function. -/
theorem claim_C4_witness :
    generate_doc wOracle wNoDoc =
      (set_docstring wNoDoc
        (parse_doc (wOracle (idOf wNoDoc)) (generate_func_hash wNoDoc false)),
        true, 1) ∧
    docOfBody (bodyOf ((generate_doc wOracle wNoDoc).1)) =
      some (parse_doc (wOracle (idOf wNoDoc)) (generate_func_hash wNoDoc false)) ∧
    template_message ∈ pySplitOnChar '\n'
      (parse_doc (wOracle (idOf wNoDoc)) (generate_func_hash wNoDoc false)) ∧
    ("hash ".toList ++ generate_func_hash wNoDoc false) ∈ pySplitOnChar '\n'
      (parse_doc (wOracle (idOf wNoDoc)) (generate_func_hash wNoDoc false)) ∧
    (generate_func_hash wNoDoc false).length = 64 ∧
    (generate_func_hash wNoDoc false).all isHexDigitChar = true :=
  claim_C4 wOracle wNoDoc (by decide) (by decide)

def wOracle2 : Nat → Line := fun _ => "Other prose!".toList

/-- Claim C5: a file is rewritten only if some entity was reported
modified; a file whose entities are all Fresh is left byte-identical with
zero oracle invocations; and an entity stamped in one pass is Fresh on
the next pass (for any second oracle), so a second run is a no-op. -/
theorem claim_C5 (oracle oracle2 : Nat → Line) (m : PyModule)
    (hnd : ((allDefsL m).map idOf).Nodup)
    (hfresh : ∀ n ∈ allDefsL m, FreshN n)
    (fn : Stmt) (hfdef : isDefB fn = true) (hfdoc : get_docstring fn = none)
    (m2 : PyModule) (c' : PyContent) (w : Bool) (k : Nat)
    (hext : extractFile oracle (PyContent.code m2) = some (c', w, k))
    (hw : w = true) :
    extractFile oracle (PyContent.code m) = some (PyContent.code m, false, 0) ∧
    (generate_doc oracle fn).2.1 = true ∧
    generate_doc oracle2 (generate_doc oracle fn).1 =
      ((generate_doc oracle fn).1, false, 0) ∧
    (processEntities oracle ((walkDefs m2).map idOf) m2).2.1 = true := by
  refine ⟨extractFile_fresh oracle m hnd hfresh, ?_, ?_, ?_⟩
  · simp only [generate_doc_missing oracle fn hfdoc]
  · simp only [generate_doc_missing oracle fn hfdoc]
    exact generate_doc_stamped_fresh oracle2 fn (oracle (idOf fn)) hfdef
  · unfold extractFile at hext
    rw [show pyParse (PyContent.code m2) = some m2 from rfl] at hext
    dsimp only [] at hext
    by_cases hr : (processEntities oracle ((walkDefs m2).map idOf) m2).2.1 = true
    · exact hr
    · rw [if_neg hr] at hext
      simp only [Option.some.injEq, Prod.mk.injEq] at hext
      rw [← hext.2.1] at hw
      exact absurd hw (by simp)

/-- Claim C5 witness: a concrete all-Fresh one-function file is untouched
with no oracle call; a concrete undocumented function is stamped and then
Fresh on a second run; a concretely modified file was indeed reported
modified. -/
theorem claim_C5_witness :
    extractFile wOracle (PyContent.code wFreshM) =
      some (PyContent.code wFreshM, false, 0) ∧
    (generate_doc wOracle wNoDoc).2.1 = true ∧
    generate_doc wOracle2 (generate_doc wOracle wNoDoc).1 =
      ((generate_doc wOracle wNoDoc).1, false, 0) ∧
    (processEntities wOracle ((walkDefs wM2).map idOf) wM2).2.1 = true :=
  claim_C5 wOracle wOracle2 wFreshM (by decide) (by decide) wNoDoc (by decide)
    (by decide) wM2
    (PyContent.code
      [set_docstring wM2node (parse_doc (wOracle 2) (generate_func_hash wM2node false))])
    true 1 (by decide) rfl

/-- Claim C6 is violated by the code (`if line_strip:` treats a zero
margin as unset): on this input the first application strips a margin of
2 but leaves the later rows' extra indentation, and a second application
strips four more characters — `normalize(normalize(x)) ≠ normalize(x)`. -/
theorem claim_C6_bug :
    normalize_left_strip PyType.classes c6txt = some c6y ∧
    normalize_left_strip PyType.classes c6y = some c6z ∧
    c6z ≠ c6y := by
  refine ⟨by decide, by decide, by decide⟩

/-- Claim C7 (amended): underline rows are not always equal in length to
their heading.  What holds: whenever the first loop returns a nonzero
margin (the rewriting path — otherwise the input is returned unchanged),
no underline row of the output is SHORTER than the stripped text of the
line above it: shorter rows were extended to exactly the heading's
length, and rows at least as long are untouched. -/
theorem claim_C7_amended (t : PyType) (txt : Line) (lines2 : List Line) (k j : Nat)
    (hp : normPass1 t (pySplitOnChar '\n' txt) = some (lines2, some k)) (hk : k ≠ 0)
    (hj1 : 1 ≤ j)
    (hu : isUnd ((stripPass k lines2).getD j []) = true) :
    normalize_left_strip t txt = some (pyJoinChar '\n' (stripPass k lines2)) ∧
    stripLen ((stripPass k lines2).getD (j - 1) []) ≤
      stripLen ((stripPass k lines2).getD j []) := by
  refine ⟨normalize_eq_of_pass1 t txt lines2 k hp hk, ?_⟩
  have hinv := normPass1_inv t _ lines2 (some k) hp
  rw [stripPass_getD] at hu
  rw [(stripRow_preserves k _).2] at hu
  rw [stripPass_getD, stripPass_getD]
  unfold stripLen
  rw [show pyStrip (stripRow k (lines2.getD (j - 1) [])) =
      pyStrip (lines2.getD (j - 1) []) from (stripRow_preserves k _).1,
    show pyStrip (stripRow k (lines2.getD j [])) =
      pyStrip (lines2.getD j []) from (stripRow_preserves k _).1]
  exact hinv.2 j hj1 hu

/-- Claim C7 witness: the amended claim at a concrete indented heading
with an indented shorter underline. -/
theorem claim_C7_witness :
    normalize_left_strip PyType.classes w7txt =
      some (pyJoinChar '\n'
        (stripPass 2 ["  ABCD".toList, "  ----".toList])) ∧
    stripLen ((stripPass 2 ["  ABCD".toList, "  ----".toList]).getD 0 []) ≤
      stripLen ((stripPass 2 ["  ABCD".toList, "  ----".toList]).getD 1 []) :=
  claim_C7_amended PyType.classes w7txt ["  ABCD".toList, "  ----".toList] 2 1
    (by decide) (by decide) (by decide) (by decide)

/-- Claim C7 counterexample: an underline row longer than its heading is
left alone, so after normalization its length differs from the heading's
— refuting "every underline row has length equal to the heading". -/
theorem claim_C7_counterexample :
    normalize_left_strip PyType.classes c7in = some c7out ∧
    isUnd ((pySplitOnChar '\n' c7out).getD 1 []) = true ∧
    stripLen ((pySplitOnChar '\n' c7out).getD 1 []) ≠
      stripLen ((pySplitOnChar '\n' c7out).getD 0 []) := by
  refine ⟨by decide, by decide, by decide⟩

/-- Claim C8 (amended): there is no per-file error recovery.  An
`ast.parse` failure propagates out of the driver loop: the run aborts at
the failing file, and that file and every file after it are left
untouched and unprocessed. -/
theorem claim_C8_amended (oracle : Nat → Line) (p : Nat) (c : PyContent)
    (post : List (Nat × PyContent)) (hc : pyParse c = none) :
    runExtract oracle ((p, c) :: post) = ((p, c) :: post, true) :=
  runExtract_abort oracle p c post hc

/-- Claim C8 witness: the amended claim at a concrete malformed file
followed by a concrete well-formed file. -/
theorem claim_C8_witness :
    runExtract wOracle ((0, PyContent.malformed 0) :: [(1, PyContent.code wM2)]) =
      ((0, PyContent.malformed 0) :: [(1, PyContent.code wM2)], true) :=
  claim_C8_amended wOracle 0 (PyContent.malformed 0) [(1, PyContent.code wM2)] rfl

/-- Claim C8 counterexample: with an unparsable first file and a second
file that WOULD be modified if processed (its lone function is
undocumented), the driver aborts: the second file's content is unchanged
and the abort flag is set — the traversal does not continue. -/
theorem claim_C8_counterexample :
    runExtract wOracle [(0, PyContent.malformed 0), (1, PyContent.code wM2)] =
      ([(0, PyContent.malformed 0), (1, PyContent.code wM2)], true) ∧
    (processEntities wOracle ((walkDefs wM2).map idOf) wM2).2.1 = true := by
  refine ⟨by decide, by decide⟩

/-- Claim C9 (amended): `parent` does not mean "directly inside a class
body".  Every Class entity's parent is `None` (class nesting is never
recorded); a Function entity receives the visitor's current class, which
covers functions nested arbitrarily deep inside a method body — witness
`g` inside method `m` of class `A` getting parent `A` — while a function
directly inside a class body but after a nested class gets `None`,
because leaving any class resets the current class — witness `h`. -/
theorem claim_C9_amended (m : PyModule) (s : Stmt) (p : Option Stmt)
    (hmem : (s, p) ∈ parentsOf m) (hcls : isClassdefB s = true) :
    p = none ∧
    (T9g, some T9A) ∈ parentsOf T9 ∧
    (T9h, (none : Option Stmt)) ∈ parentsOf T9 :=
  ⟨parentsOf_class_none m s p hmem hcls, by decide, by decide⟩

/-- Claim C9 witness: the amended claim at the concrete nested-class
entry of `T9`. -/
theorem claim_C9_witness :
    (none : Option Stmt) = none ∧
    (T9g, some T9A) ∈ parentsOf T9 ∧
    (T9h, (none : Option Stmt)) ∈ parentsOf T9 :=
  claim_C9_amended T9 T9B none (by decide) (by decide)

/-- Claim C9 counterexample: class `B` is nested directly inside class
`A`, yet its recorded parent is `None`, not `A` — refuting "a Class
entity nested inside another class has its parent set to that enclosing
class". -/
theorem claim_C9_counterexample :
    (T9B, (none : Option Stmt)) ∈ parentsOf T9 ∧
    ¬ ((T9B, some T9A) ∈ parentsOf T9) := by
  refine ⟨by decide, by decide⟩

/-- Claim C10: `AIDocumenter.__call__` always raises: after building the
template input and stripping the chain response, it calls
`normalize_left_strip` with only the text argument, while the method
requires both `txt` and `type`; Python raises `TypeError` for the missing
positional argument before any normalized text can be returned — for
every input and every oracle. -/
theorem claim_C10 (invoke : TemplateInput → Line) (fs : Line) (t : PyType)
    (ps : Option Line) :
    aiDocumenterCall invoke fs t ps = Except.error PyErr.typeErrorMissingArg := by
  unfold aiDocumenterCall
  rfl
